import Mathlib

/-!
Verification of the `archiver` compression engine.

The Rust sources under `src/` are shallowly embedded below.  Bytes are
modelled as `Nat` (values kept below 256 by the operations themselves, or by
explicit `% 256` where Rust performs an `as u8` truncation); byte buffers are
`List Nat`.  A Rust function that can panic is modelled as returning
`Option`, with `none` standing for the panic; a Rust function that can
return an error value is modelled with an explicit error constructor.  Rust
`HashMap`s are modelled as association lists; where the source iterates over
a `HashMap` (an order that is unspecified and varies between runs), the
embedding takes the iteration order as an explicit parameter ranging over
the permutations of the key set.
-/

set_option maxRecDepth 4000

namespace Archiver

/-! ## Shared byte helpers -/

/-- Little-endian 4-byte encoding of a `u32` value; `n` is reduced mod `2^32`
    exactly as the Rust `as u32` cast does. -/
def u32le (n : Nat) : List Nat :=
  [n % 256, n / 256 % 256, n / 65536 % 256, n / 16777216 % 256]

/-- Big-endian 4-byte encoding of a `u32` value (Rust `to_be_bytes`). -/
def u32be (n : Nat) : List Nat :=
  [n / 16777216 % 256, n / 65536 % 256, n / 256 % 256, n % 256]

/-- Big-endian 2-byte encoding of a `u16` value (Rust `to_be_bytes`). -/
def u16be (n : Nat) : List Nat :=
  [n / 256 % 256, n % 256]

/-- Reads 4 little-endian bytes at offset `off`; `none` when fewer than four
    bytes remain (the Rust slice expression would panic there). -/
def readU32le (data : List Nat) (off : Nat) : Option Nat :=
  match data.drop off with
  | b0 :: b1 :: b2 :: b3 :: _ => some (b0 + b1 * 256 + b2 * 65536 + b3 * 16777216)
  | _ => none

/-- Reads 4 big-endian bytes at offset `off`. -/
def readU32be (data : List Nat) (off : Nat) : Option Nat :=
  match data.drop off with
  | b0 :: b1 :: b2 :: b3 :: _ => some (b0 * 16777216 + b1 * 65536 + b2 * 256 + b3)
  | _ => none

/-- Reads 2 big-endian bytes at offset `off`. -/
def readU16be (data : List Nat) (off : Nat) : Option Nat :=
  match data.drop off with
  | b0 :: b1 :: _ => some (b0 * 256 + b1)
  | _ => none

/-! ## RLE codec (`src/rle.rs`)

Only `rle::compress` is needed by the claims (the parallel-orchestrator claim
concatenates per-chunk compressor outputs). -/

/-- Inner `while` of `rle::compress` that measures a run of equal bytes:
    `while i + run_len < input.len() && input[i + run_len] == input[i] && run_len < 127`.
    All indexing is in bounds whenever the loop guard holds, so `getD` is
    exact. -/
def rleRunLen (input : List Nat) (i run : Nat) : Nat :=
  if h : i + run < input.length ∧ input.getD (i + run) 0 = input.getD i 0 ∧ run < 127 then
    rleRunLen input i (run + 1)
  else run
termination_by 127 - run
decreasing_by omega

/-- Inner `while` of `rle::compress` that scans a block of distinct bytes:
    advances `i` and `distinct_count` while `i < input.len()`, the current
    byte does not equal both of the two previous bytes, and the count is
    below 127.  Returns the final `(i, distinct_count)`. -/
def rleScan (input : List Nat) (i cnt : Nat) : Nat × Nat :=
  if h : i < input.length ∧
      ¬(input.getD i 0 = input.getD (i - 1) 0 ∧ input.getD i 0 = input.getD (i - 2) 0) ∧
      cnt < 127 then
    rleScan input (i + 1) (cnt + 1)
  else (i, cnt)
termination_by 127 - cnt
decreasing_by omega

/-- Outer `while` of `rle::compress`.  The recursive call in the
    distinct-bytes branch resumes at `(rleScan input (i+2) 2).1 - 2`
    (the Rust `i = i.saturating_sub(2)` after the scan); the
    `decreasing_by` block shows that the scan always advances at least one
    position there, because the run branch was not taken. -/
def rleCompressLoop (input : List Nat) (i : Nat) : List Nat :=
  if hlt : i < input.length then
    if hrun : 1 < rleRunLen input i 1 then
      rleRunLen input i 1 % 256 :: input.getD i 0 ::
        rleCompressLoop input (i + rleRunLen input i 1)
    else if input.length ≤ i + 2 then
      if input.length ≤ i + 1 then
        1 :: input.getD i 0 :: rleCompressLoop input (i + 1)
      else
        130 :: input.getD i 0 :: input.getD (i + 1) 0 :: rleCompressLoop input (i + 2)
    else
      (128 + ((rleScan input (i + 2) 2).2 - 2) % 256) ::
        ((input.drop i).take ((rleScan input (i + 2) 2).2 - 2) ++
          rleCompressLoop input ((rleScan input (i + 2) 2).1 - 2))
  else []
termination_by input.length - i
decreasing_by
  · omega
  · omega
  · omega
  · -- distinct-bytes branch: the scan starting at `i+2` takes at least one
    -- step, since `run ≤ 1` rules out `input[i+1] = input[i]`, hence also
    -- rules out a triple ending at `i+2`.
    have hmono : ∀ j c, j ≤ (rleScan input j c).1 := by
      intro j c
      induction j, c using rleScan.induct input with
      | case1 j c h ih => rw [rleScan, dif_pos h]; omega
      | case2 j c h => rw [rleScan, dif_neg h]
    have hne : ¬ input.getD (i + 1) 0 = input.getD i 0 := by
      intro heq
      have : 2 ≤ rleRunLen input i 1 := by
        rw [rleRunLen, dif_pos (by refine ⟨by omega, ?_, by omega⟩; simpa using heq)]
        have : ∀ r, r ≤ rleRunLen input i r := by
          intro r
          induction r using rleRunLen.induct input i with
          | case1 r h ih => rw [rleRunLen, dif_pos h]; omega
          | case2 r h => rw [rleRunLen, dif_neg h]
        exact this 2
      omega
    have hstep : (rleScan input (i + 2) 2).1 ≥ i + 3 := by
      rw [rleScan, dif_pos]
      · exact hmono (i + 2 + 1) (2 + 1)
      · refine ⟨by omega, ?_, by omega⟩
        simp only [Nat.add_sub_cancel]
        intro hc
        have h1 : input.getD (i + 2) 0 = input.getD (i + 2 - 1) 0 := hc.1
        have h2 : input.getD (i + 2) 0 = input.getD (i + 2 - 2) 0 := hc.2
        have e1 : i + 2 - 1 = i + 1 := by omega
        have e2 : i + 2 - 2 = i := by omega
        rw [e1] at h1; rw [e2] at h2
        exact hne (h1 ▸ h2)
    omega

/-- Embeds `rle::compress`. -/
def rleCompress (input : List Nat) : List Nat :=
  rleCompressLoop input 0

/-! ## LZ77 codec (`src/lz77.rs`) -/

/-- Inner `while` of the LZ77 match finder: length of the common run of
    `input[j..]` and `input[i..]`, capped at the 18-byte lookahead and the
    end of the input.  In `lz77::compress` both indices are in bounds while
    the guard holds. -/
def lz77MatchLen (input : List Nat) (j i k : Nat) : Nat :=
  if h : k < 18 ∧ i + k < input.length ∧ input.getD (j + k) 0 = input.getD (i + k) 0 then
    lz77MatchLen input j i (k + 1)
  else k
termination_by 18 - k
decreasing_by omega

/-- The `for j in start..i` scan of `lz77::compress`: the best
    `(match_length, match_distance)` pair, where only strictly longer
    matches replace the current best. -/
def lz77Best (input : List Nat) (i : Nat) : Nat × Nat :=
  let start := if i ≥ 4096 then i - 4096 else 0
  (List.range' start (i - start)).foldl
    (fun acc j =>
      let k := lz77MatchLen input j i 0
      if k > acc.1 then (k, i - j) else acc)
    (0, 0)

/-- Outer `while` of `lz77::compress`: emit `[0, dist_hi, dist_lo, len]` for
    a match of length at least 3, else `[1, literal]`. -/
def lz77CompressLoop (input : List Nat) (i : Nat) : List Nat :=
  if hlt : i < input.length then
    if hm : 3 ≤ (lz77Best input i).1 then
      0 :: ((lz77Best input i).2 / 256 % 256) :: ((lz77Best input i).2 % 256) ::
        ((lz77Best input i).1 % 256) :: lz77CompressLoop input (i + (lz77Best input i).1)
    else
      1 :: input.getD i 0 :: lz77CompressLoop input (i + 1)
  else []
termination_by input.length - i
decreasing_by
  · omega
  · omega

/-- Embeds `lz77::compress`. -/
def lz77Compress (input : List Nat) : List Nat :=
  lz77CompressLoop input 0

/-- The self-referential copy `for j in 0..length { decompressed.push(decompressed[start + j]) }`
    of `lz77::decompress`; `none` models the index-out-of-bounds panic. -/
def lz77CopyRef (out : List Nat) (start len : Nat) : Option (List Nat) :=
  match len with
  | 0 => some out
  | n + 1 =>
    match out.get? start with
    | some b => lz77CopyRef (out ++ [b]) (start + 1) n
    | none => none

/-- The `while` of `lz77::decompress`.  The source performs unchecked
    indexing (`input[i + 1]` …), an unchecked subtraction
    `decompressed.len() - distance` and unchecked back-reference reads; every
    such access is modelled partially, with `none` standing for the panic. -/
def lz77DecLoop (input : List Nat) (i : Nat) (out : List Nat) : Option (List Nat) :=
  if hlt : i < input.length then
    if input.getD i 0 = 0 then
      match input.get? (i + 1), input.get? (i + 2), input.get? (i + 3) with
      | some d1, some d2, some l =>
        let distance := d1 * 256 + d2
        if distance ≤ out.length then
          match h : lz77CopyRef out (out.length - distance) l with
          | some out1 => lz77DecLoop input (i + 4) out1
          | none => none
          else none
      | _, _, _ => none
    else
      match input.get? (i + 1) with
      | some b => lz77DecLoop input (i + 2) (out ++ [b])
      | none => none
  else some out
termination_by input.length - i
decreasing_by
  · omega
  · omega

/-- Embeds `lz77::decompress`, `none` modelling a panic. -/
def lz77Decompress (input : List Nat) : Option (List Nat) :=
  lz77DecLoop input 0 []

/-! ## LZ4-style codec (`src/lz4.rs`) -/

/-- Inner byte-extension `while` of `lz4::compress`: extends the match while
    `s < input.len() && input[s] == input[ref_i] && match_length < max_length`. -/
def lz4Extend (input : List Nat) (refi s ml maxl : Nat) : Nat :=
  if h : s < input.length ∧ input.getD s 0 = input.getD refi 0 ∧ ml < maxl then
    lz4Extend input (refi + 1) (s + 1) (ml + 1) maxl
  else ml
termination_by maxl - ml
decreasing_by omega

/-- One step of the `lz4::compress` match finder at position `i`: looks up
    the 2-byte hash in the table, stores `i` there, and extends a candidate
    match within the 65535-byte window.  Returns the updated table together
    with `(match_length, match_distance)`.  The table maps hashes to the most
    recent position, `none` standing for the Rust sentinel `-1`. -/
def lz4Probe (input : List Nat) (tbl : List (Option Nat)) (i : Nat) :
    List (Option Nat) × Nat × Nat :=
  if i + 4 ≤ input.length then
    let hash := (input.getD i 0 * 256 + input.getD (i + 1) 0) % 65536
    let refPos := (tbl.getD hash none)
    let tbl1 := tbl.set hash (some i)
    match refPos with
    | some rp =>
      if i - rp ≤ 65535 ∧ rp < i then
        let maxl := min 255 (input.length - i)
        (tbl1, lz4Extend input rp i 0 maxl, i - rp)
      else (tbl1, 0, 0)
    | none => (tbl1, 0, 0)
  else (tbl, 0, 0)

/-- Outer `while` of `lz4::compress`: emit `[0, dist_lo, dist_hi, len]` for a
    match of length at least 4, else `[1, literal]`.  (`rp < i` in
    `lz4Probe` mirrors `ref_pos != -1 && i - ref_pos <= 65535`: the stored
    positions are always earlier ones.) -/
def lz4CompressLoop (input : List Nat) (tbl : List (Option Nat)) (i : Nat) : List Nat :=
  if hlt : i < input.length then
    if hm : 4 ≤ (lz4Probe input tbl i).2.1 then
      0 :: ((lz4Probe input tbl i).2.2 % 256) :: ((lz4Probe input tbl i).2.2 / 256 % 256) ::
        ((lz4Probe input tbl i).2.1 % 256) ::
        lz4CompressLoop input (lz4Probe input tbl i).1 (i + (lz4Probe input tbl i).2.1)
    else
      1 :: input.getD i 0 :: lz4CompressLoop input (lz4Probe input tbl i).1 (i + 1)
  else []
termination_by input.length - i
decreasing_by
  · omega
  · omega

/-- Embeds `lz4::compress` (hash table of 65536 empty slots). -/
def lz4Compress (input : List Nat) : List Nat :=
  lz4CompressLoop input (List.replicate 65536 none) 0

/-- The bounded self-referential copy of `lz4::decompress`: mirrors
    `for _ in 0..length { if start >= output.len() { … return Vec::new(); } … }`;
    `none` models taking that error branch (not a panic). -/
def lz4Copy (out : List Nat) (start len : Nat) : Option (List Nat) :=
  match len with
  | 0 => some out
  | n + 1 =>
    if start < out.length then lz4Copy (out ++ [out.getD start 0]) (start + 1) n
    else none

/-- The `while` of `lz4::decompress`.  The result is `some (output, errored)`
    where `errored` records that one of the `eprintln!` error branches ran
    (each of those returns an empty vector); `none` would model a panic and
    is only produced by the dead branches guarding the already-checked
    indexed reads. -/
def lz4DecLoop (input : List Nat) (i : Nat) (out : List Nat) : Option (List Nat × Bool) :=
  if hlt : i < input.length then
    if input.getD i 0 = 0 then
      if input.length ≤ i + 3 then some ([], true)
      else
        match input.get? (i + 1), input.get? (i + 2), input.get? (i + 3) with
        | some o1, some o2, some l =>
          let offset := o1 + o2 * 256
          if offset = 0 ∨ out.length < offset then some ([], true)
          else
            match lz4Copy out (out.length - offset) l with
            | some out1 => lz4DecLoop input (i + 4) out1
            | none => some ([], true)
        | _, _, _ => none
    else if input.getD i 0 = 1 then
      if input.length ≤ i + 1 then some ([], true)
      else
        match input.get? (i + 1) with
        | some b => lz4DecLoop input (i + 2) (out ++ [b])
        | none => none
    else some ([], true)
  else some (out, false)
termination_by input.length - i
decreasing_by
  · omega
  · omega

/-- Embeds `lz4::decompress`; the Boolean is true exactly when an error was
    reported via `eprintln!` (in which case the returned buffer is empty). -/
def lz4Decompress (input : List Nat) : Option (List Nat × Bool) :=
  lz4DecLoop input 0 []

/-! ## Archive container (`src/io.rs`) -/

/-- UTF-8 validity of a byte sequence, per RFC 3629; this is the predicate
    `String::from_utf8` checks.  The Rust `DirEntry.path` is a `String`, so
    its byte representation always satisfies this. -/
def validUtf8 : List Nat → Bool
  | [] => true
  | b :: rest =>
    if b < 0x80 then validUtf8 rest
    else if 0xC2 ≤ b ∧ b ≤ 0xDF then
      match rest with
      | c1 :: r => (0x80 ≤ c1 && c1 ≤ 0xBF) && validUtf8 r
      | _ => false
    else if 0xE0 ≤ b ∧ b ≤ 0xEF then
      match rest with
      | c1 :: c2 :: r =>
        (decide ((if b = 0xE0 then 0xA0 else 0x80) ≤ c1 ∧
                 c1 ≤ (if b = 0xED then 0x9F else 0xBF)) &&
         (0x80 ≤ c2 && c2 ≤ 0xBF)) && validUtf8 r
      | _ => false
    else if 0xF0 ≤ b ∧ b ≤ 0xF4 then
      match rest with
      | c1 :: c2 :: c3 :: r =>
        (decide ((if b = 0xF0 then 0x90 else 0x80) ≤ c1 ∧
                 c1 ≤ (if b = 0xF4 then 0x8F else 0xBF)) &&
         (0x80 ≤ c2 && c2 ≤ 0xBF) && (0x80 ≤ c3 && c3 ≤ 0xBF)) && validUtf8 r
      | _ => false
    else false

/-- A `DirEntry` of `src/io.rs`; `path` is the UTF-8 byte representation of
    the Rust `String`. -/
structure DirEntry where
  path : List Nat
  data : List Nat
  permissions : Nat
deriving DecidableEq, Repr, Inhabited

/-- Outcome of the deserialization functions: a value, the structured
    `InvalidData` error, or a panic. -/
inductive SerResult (α : Type) where
  | ok (val : α)
  | invalidData
  | panicked
deriving DecidableEq, Repr

/-- Embeds `dir_entry_to_bytes`. -/
def dirEntryToBytes (e : DirEntry) : List Nat :=
  u32le e.permissions ++ u32le e.path.length ++ e.path ++ u32le e.data.length ++ e.data

/-- Embeds `bytes_to_dir_entry`.  The source indexes and slices without
    bounds checks, so a declared length that overruns the record is a panic
    (`SerResult.panicked`); only an invalid UTF-8 path produces the
    `InvalidData` error. -/
def bytesToDirEntry (data : List Nat) : SerResult DirEntry :=
  match readU32le data 0 with
  | none => .panicked
  | some permissions =>
    match readU32le data 4 with
    | none => .panicked
    | some pathLen =>
      if data.length < 8 + pathLen then .panicked
      else
        let pathBytes := (data.drop 8).take pathLen
        if validUtf8 pathBytes then
          match readU32le data (8 + pathLen) with
          | none => .panicked
          | some dataLen =>
            if data.length < 8 + pathLen + 4 + dataLen then .panicked
            else .ok ⟨pathBytes, (data.drop (12 + pathLen)).take dataLen, permissions⟩
        else .invalidData

/-- Embeds `archive_data_to_bytes`: 4-byte little-endian entry count, then
    for each entry a 4-byte little-endian record size followed by the record. -/
def archiveDataToBytes (entries : List DirEntry) : List Nat :=
  u32le entries.length ++
    (entries.map (fun e => u32le (dirEntryToBytes e).length ++ dirEntryToBytes e)).flatten

/-- The entry-reading loop of `bytes_to_archive_data`: reads `n` size-prefixed
    records starting at `off`.  Missing size fields and records overrunning
    the buffer are the checked `InvalidData` errors of the source. -/
def bytesToArchiveLoop (data : List Nat) (off n : Nat) : SerResult (List DirEntry) :=
  match n with
  | 0 => .ok []
  | k + 1 =>
    if data.length < off + 4 then .invalidData
    else
      match readU32le data off with
      | none => .panicked
      | some sz =>
        if data.length < off + 4 + sz then .invalidData
        else
          match bytesToDirEntry ((data.drop (off + 4)).take sz) with
          | .ok e =>
            match bytesToArchiveLoop data (off + 4 + sz) k with
            | .ok es => .ok (e :: es)
            | .invalidData => .invalidData
            | .panicked => .panicked
          | .invalidData => .invalidData
          | .panicked => .panicked

/-- Embeds `bytes_to_archive_data`. -/
def bytesToArchiveData (data : List Nat) : SerResult (List DirEntry) :=
  if data.length < 4 then .invalidData
  else
    match readU32le data 0 with
    | none => .panicked
    | some n => bytesToArchiveLoop data 4 n

/-! ## LZW codec (`src/lzw.rs`) -/

/-- State of the `BitWriter`: pending byte, number of pending bits, bytes
    emitted so far. -/
structure BW where
  cur : Nat
  pos : Nat
  out : List Nat
deriving DecidableEq, Repr

/-- One iteration of `BitWriter::write_bits`: shift the pending byte left,
    or in the bit, and emit the byte once 8 bits are pending. -/
def bwPushBit (st : BW) (bit : Nat) : BW :=
  let c := st.cur * 2 % 256 + bit
  if st.pos + 1 = 8 then ⟨0, 0, st.out ++ [c]⟩ else ⟨c, st.pos + 1, st.out⟩

/-- The loop of `BitWriter::write_bits`: `t` iterations remain; each takes
    bit `num_bits - 1` of the (u16, left-shifting) accumulator. -/
def bwWriteBitsGo (st : BW) (bits nbits t : Nat) : BW :=
  match t with
  | 0 => st
  | k + 1 => bwWriteBitsGo (bwPushBit st (bits / 2 ^ (nbits - 1) % 2)) (bits * 2 % 65536) nbits k

/-- Embeds `BitWriter::write_bits`. -/
def bwWriteBits (st : BW) (bits nbits : Nat) : BW :=
  bwWriteBitsGo st bits nbits nbits

/-- Embeds `BitWriter::flush`: left-justify and emit any pending bits. -/
def bwFlush (st : BW) : BW :=
  if 0 < st.pos then ⟨0, 0, st.out ++ [st.cur * 2 ^ (8 - st.pos) % 256]⟩ else st

/-- The LZW compressor dictionary seeded with the 256 single-byte sequences. -/
def lzwSeedDict : List (List Nat × Nat) :=
  (List.range 256).map (fun i => ([i], i))

/-- State of the `lzw::compress` loop. -/
structure LzwC where
  dict : List (List Nat × Nat)
  size : Nat
  w : List Nat
  bw : BW

/-- One iteration of the `lzw::compress` `for` loop.  The `HashMap` is an
    association list; inserts prepend (all keys are distinct). -/
def lzwCompressStep (st : LzwC) (c : Nat) : LzwC :=
  let wc := st.w ++ [c]
  if (st.dict.lookup wc).isSome then ⟨st.dict, st.size, wc, st.bw⟩
  else
    let bw1 := match st.dict.lookup st.w with
      | some code => bwWriteBits st.bw code 12
      | none => st.bw
    if st.size < 4096 then ⟨(wc, st.size) :: st.dict, st.size + 1, [c], bw1⟩
    else ⟨st.dict, st.size, [c], bw1⟩

/-- Embeds `lzw::compress`. -/
def lzwCompress (input : List Nat) : List Nat :=
  let st := input.foldl lzwCompressStep ⟨lzwSeedDict, 256, [], ⟨0, 0, []⟩⟩
  let bw1 :=
    if st.w = [] then st.bw
    else match st.dict.lookup st.w with
      | some code => bwWriteBits st.bw code 12
      | none => st.bw
  (bwFlush bw1).out

/-- State of the `BitReader`: remaining bytes, current byte, bit position
    within it (8 means "refill before the next bit"). -/
structure BR where
  bytes : List Nat
  cur : Nat
  pos : Nat
deriving DecidableEq, Repr

/-- The loop of `BitReader::read_bits` (`t` iterations remain); `none` is the
    `Ok(None)` end-of-data result when a refill hits the end of the slice. -/
def brReadBitsGo (st : BR) (acc t : Nat) : Option (Nat × BR) :=
  match t with
  | 0 => some (acc, st)
  | k + 1 =>
    if st.pos = 8 then
      match st.bytes with
      | [] => none
      | b :: rest => brReadBitsGo ⟨rest, b, 1⟩ (acc * 2 % 65536 + b / 2 ^ 7 % 2) k
    else
      brReadBitsGo ⟨st.bytes, st.cur, st.pos + 1⟩
        (acc * 2 % 65536 + st.cur / 2 ^ (7 - st.pos) % 2) k

/-- Embeds `BitReader::read_bits`. -/
def brReadBits (st : BR) (n : Nat) : Option (Nat × BR) :=
  brReadBitsGo st 0 n

/-- The code-collecting `while` of `lzw::decompress`, with fuel.  Each
    12-bit code consumes more than 8 bits, so a reader over `n` bytes can
    yield at most `n` codes; the fuel `bytes.length + 1` used below is
    therefore never exhausted for the states `decompress` builds
    (`pos ≤ 8`), and the fuel merely makes the recursion well-founded for
    arbitrary states. -/
def lzwReadCodesFuel : Nat → BR → List Nat
  | 0, _ => []
  | f + 1, st =>
    match brReadBits st 12 with
    | some (c, st1) => c :: lzwReadCodesFuel f st1
    | none => []

/-- All 12-bit codes of a compressed LZW stream. -/
def lzwReadCodes (input : List Nat) : List Nat :=
  lzwReadCodesFuel (input.length + 1) ⟨input, 0, 8⟩

/-- The LZW decompressor dictionary seeded with the 256 single-byte
    sequences (code to sequence direction). -/
def lzwDecDict0 : List (Nat × List Nat) :=
  (List.range 256).map (fun i => (i, [i]))

/-- The `for` loop of `lzw::decompress` over the codes after the first.
    `some (out, true)` is the reported invalid-code error (which returns an
    empty vector); `none` models the `w[0]`/`entry[0]` index panic on an
    empty vector, reachable only after an unrecognized first code. -/
def lzwDecodeLoop :
    List Nat → List (Nat × List Nat) → Nat → List Nat → List Nat → Option (List Nat × Bool)
  | [], _, _, _, res => some (res, false)
  | k :: rest, dict, size, w, res =>
    match dict.lookup k with
    | some e =>
      if size < 4096 then
        match e with
        | [] => none
        | e0 :: _ => lzwDecodeLoop rest ((size, w ++ [e0]) :: dict) (size + 1) e (res ++ e)
      else lzwDecodeLoop rest dict size e (res ++ e)
    | none =>
      if k = size then
        match w with
        | [] => none
        | w0 :: _ =>
          if size < 4096 then
            lzwDecodeLoop rest ((size, w ++ [w0]) :: dict) (size + 1) (w ++ [w0])
              (res ++ (w ++ [w0]))
          else lzwDecodeLoop rest dict size (w ++ [w0]) (res ++ (w ++ [w0]))
      else some ([], true)

/-- Embeds `lzw::decompress`.  The first code is looked up with
    `unwrap_or_else(Vec::new)`: an unrecognized first code silently becomes
    the empty sequence. -/
def lzwDecompress (input : List Nat) : Option (List Nat × Bool) :=
  match lzwReadCodes input with
  | [] => some ([], false)
  | k0 :: rest =>
    let w0 := (lzwDecDict0.lookup k0).getD []
    lzwDecodeLoop rest lzwDecDict0 256 w0 w0

/-! ## Huffman codec (`src/huffman.rs`)

The Rust `Node` always has either a byte value and no children (leaf) or two
children and no byte value (internal) — the only two shapes
`build_huffman_tree` ever constructs — so the embedding uses a
two-constructor tree.  `BinaryHeap` is embedded by its actual `push`/`pop`
algorithms (append + sift-up; swap-in-last + sift-down-to-bottom + sift-up),
because the arrangement of `Ordering::Equal` elements affects which node is
merged first, and hence the emitted bytes. -/

/-- Huffman tree node. -/
inductive HNode where
  | leaf (f : Nat) (b : Nat)
  | node (f : Nat) (l r : HNode)
deriving DecidableEq, Repr

instance : Inhabited HNode := ⟨.leaf 0 0⟩

/-- The `freq` field. -/
def HNode.freq : HNode → Nat
  | .leaf f _ => f
  | .node f _ _ => f

/-- The value `self.byte.unwrap_or(0)` used by the `Ord` implementation. -/
def HNode.byteOr0 : HNode → Nat
  | .leaf _ b => b
  | .node _ _ _ => 0

/-- The `Ord` implementation for `Node`: frequency comparison reversed
    (lowest frequency is greatest), ties resolved by comparing the byte
    values in their usual order. -/
def hCmp (a b : HNode) : Ordering :=
  match compare b.freq a.freq with
  | .eq => compare a.byteOr0 b.byteOr0
  | o => o

/-- The `sift_up` loop of `BinaryHeap::push` (hole optimization replaced by
    the equivalent repeated swap): bubble the element at `pos` up while it is
    strictly greater than its parent. -/
def siftUpGo (d : List HNode) (pos : Nat) : List HNode :=
  if h : 0 < pos ∧ hCmp (d.getD pos default) (d.getD ((pos - 1) / 2) default) = .gt then
    siftUpGo
      ((d.set pos (d.getD ((pos - 1) / 2) default)).set ((pos - 1) / 2) (d.getD pos default))
      ((pos - 1) / 2)
  else d
termination_by pos
decreasing_by omega

/-- Embeds `BinaryHeap::push`. -/
def heapPush (d : List HNode) (x : HNode) : List HNode :=
  siftUpGo (d ++ [x]) d.length

/-- Phase one of `BinaryHeap::sift_down_to_bottom`: move the hole down along
    the greater-child path to the bottom, shifting the children up.  The
    extracted element is not consulted.  Returns the array and the final
    hole position. -/
def sdtbGo (d : List HNode) (hole : Nat) : List HNode × Nat :=
  if h1 : 2 * hole + 2 < d.length then
    if hCmp (d.getD (2 * hole + 1) default) (d.getD (2 * hole + 2) default) = .gt then
      sdtbGo (d.set hole (d.getD (2 * hole + 1) default)) (2 * hole + 1)
    else
      sdtbGo (d.set hole (d.getD (2 * hole + 2) default)) (2 * hole + 2)
  else if 2 * hole + 2 = d.length then
    (d.set hole (d.getD (2 * hole + 1) default), 2 * hole + 1)
  else (d, hole)
termination_by d.length - hole
decreasing_by
  · simp only [List.length_set]; omega
  · simp only [List.length_set]; omega

/-- Phase two of `sift_down_to_bottom`: sift the extracted element up from
    the bottom hole position (with `start = 0`), then place it. -/
def suFinish (d : List HNode) (x : HNode) (pos : Nat) : List HNode :=
  if h : 0 < pos ∧ hCmp x (d.getD ((pos - 1) / 2) default) = .gt then
    suFinish (d.set pos (d.getD ((pos - 1) / 2) default)) x ((pos - 1) / 2)
  else d.set pos x
termination_by pos
decreasing_by omega

/-- Embeds `BinaryHeap::pop`: remove the last element, swap it with the
    root, and restore the heap with `sift_down_to_bottom`. -/
def heapPop (d : List HNode) : Option (HNode × List HNode) :=
  match d with
  | [] => none
  | _ :: _ =>
    if d.dropLast.length = 0 then some (d.getD (d.length - 1) default, [])
    else
      some (d.getD 0 default,
        suFinish (sdtbGo (d.dropLast.set 0 (d.getD (d.length - 1) default)) 0).1
          (d.getD (d.length - 1) default)
          (sdtbGo (d.dropLast.set 0 (d.getD (d.length - 1) default)) 0).2)

/-- Length facts used by the termination argument of the merge loop (and by
    the heap lemmas below). -/
theorem siftUpGo_length (d : List HNode) (pos : Nat) : (siftUpGo d pos).length = d.length := by
  induction d, pos using siftUpGo.induct with
  | case1 d pos h ih => rw [siftUpGo, dif_pos h]; simpa using ih
  | case2 d pos h => rw [siftUpGo, dif_neg h]

theorem sdtbGo_length (d : List HNode) (hole : Nat) :
    (sdtbGo d hole).1.length = d.length := by
  induction d, hole using sdtbGo.induct with
  | case1 d hole h1 hc ih => rw [sdtbGo, dif_pos h1, if_pos hc]; simpa using ih
  | case2 d hole h1 hc ih => rw [sdtbGo, dif_pos h1, if_neg hc]; simpa using ih
  | case3 d hole h1 h2 => rw [sdtbGo, dif_neg h1, if_pos h2]; simp
  | case4 d hole h1 h2 => rw [sdtbGo, dif_neg h1, if_neg h2]

theorem suFinish_length (d : List HNode) (x : HNode) (pos : Nat) :
    (suFinish d x pos).length = d.length := by
  induction d, x, pos using suFinish.induct with
  | case1 d x pos h ih => rw [suFinish, dif_pos h]; simpa using ih
  | case2 d x pos h => rw [suFinish, dif_neg h]; simp

theorem heapPush_length (d : List HNode) (x : HNode) :
    (heapPush d x).length = d.length + 1 := by
  unfold heapPush; rw [siftUpGo_length]; simp

/-- Embeds the `heap.pop().unwrap()` calls of the merge loop: the pops there
    always succeed because the loop guard keeps at least two elements. -/
def heapPopU (d : List HNode) : HNode × List HNode :=
  (heapPop d).getD (default, [])

theorem heapPop_length (d : List HNode) (p : HNode × List HNode) (h : heapPop d = some p) :
    p.2.length = d.length - 1 := by
  match d with
  | [] => simp [heapPop] at h
  | a :: t =>
    rw [heapPop] at h
    by_cases h0 : (List.dropLast (a :: t)).length = 0
    · rw [if_pos h0] at h
      cases h
      simp only [List.length_dropLast, List.length_cons, List.length_nil] at h0 ⊢
      omega
    · rw [if_neg h0] at h
      cases h
      simp only [suFinish_length, sdtbGo_length, List.length_set, List.length_dropLast]

theorem heapPop_isSome (d : List HNode) (h : d ≠ []) : ∃ p, heapPop d = some p := by
  match d with
  | [] => exact absurd rfl h
  | a :: t =>
    rw [heapPop]
    by_cases h0 : (a :: t).dropLast.length = 0
    · rw [if_pos h0]; exact ⟨_, rfl⟩
    · rw [if_neg h0]; exact ⟨_, rfl⟩

theorem heapPopU_length (d : List HNode) (h : d ≠ []) :
    (heapPopU d).2.length = d.length - 1 := by
  obtain ⟨p, hp⟩ := heapPop_isSome d h
  rw [heapPopU, hp]
  exact heapPop_length d p hp

/-- The merge `while` of `build_huffman_tree`: pop the two greatest (lowest
    frequency) nodes, push their parent, and finish with a final pop. -/
def hMergeLoop (d : List HNode) : Option HNode :=
  if h : 1 < d.length then
    hMergeLoop (heapPush (heapPopU (heapPopU d).2).2
      (.node ((heapPopU d).1.freq + (heapPopU (heapPopU d).2).1.freq)
        (heapPopU d).1 (heapPopU (heapPopU d).2).1))
  else (heapPop d).map (fun p => p.1)
termination_by d.length
decreasing_by
  have h1 : d ≠ [] := by intro he; rw [he] at h; simp at h
  have e1 := heapPopU_length d h1
  have h2 : (heapPopU d).2 ≠ [] := by
    intro he
    rw [he] at e1
    simp at e1
    omega
  have e2 := heapPopU_length (heapPopU d).2 h2
  rw [heapPush_length]
  omega

/-- Embeds `build_huffman_tree`: sorted `(byte, freq)` pairs become leaves
    pushed in order, then merged. -/
def buildHuffmanTree (pairs : List (Nat × Nat)) : Option HNode :=
  hMergeLoop (pairs.foldl (fun d p => heapPush d (.leaf p.2 p.1)) [])

/-- The distinct bytes of the input in ascending order — the key set of the
    frequency `HashMap`, as sorted by `build_huffman_tree` (all byte values
    are below 256 in the Rust `u8` input). -/
def huffDistinct (input : List Nat) : List Nat :=
  (List.range 256).filter (fun b => b ∈ input)

/-- The sorted `freq_vec`: each occurring byte with its frequency. -/
def huffFreqPairs (input : List Nat) : List (Nat × Nat) :=
  (huffDistinct input).map (fun b => (b, input.count b))

/-- Embeds `build_codes` on a tree node: a leaf records its prefix, an
    internal node recurses left with an appended 0 bit and right with an
    appended 1 bit. -/
def buildCodesN : HNode → List Bool → List (Nat × List Bool)
  | .leaf _ b, pre => [(b, pre)]
  | .node _ l r, pre => buildCodesN l (pre ++ [false]) ++ buildCodesN r (pre ++ [true])

/-- Embeds `build_codes` at the root. -/
def buildCodes : Option HNode → List (Nat × List Bool)
  | none => []
  | some t => buildCodesN t []

/-- The bit-packing loop of `huffman::compress`: MSB-first into bytes, the
    final partial byte left-justified with zero padding. -/
def packBitsGo : List Bool → Nat → Nat → List Nat
  | [], byte, bitIdx => if bitIdx = 0 then [] else [byte * 2 ^ (8 - bitIdx) % 256]
  | bit :: rest, byte, bitIdx =>
    if bitIdx + 1 = 8 then (byte * 2 % 256 + if bit then 1 else 0) :: packBitsGo rest 0 0
    else packBitsGo rest (byte * 2 % 256 + if bit then 1 else 0) (bitIdx + 1)

/-- Embeds `huffman::compress`.  The header iterates the frequency `HashMap`
    in an order that Rust does not specify (it varies between runs and even
    between map instances); the embedding takes that iteration order as the
    parameter `ord`, which ranges over permutations of `huffDistinct input`. -/
def huffmanCompressOrd (ord : List Nat) (input : List Nat) : List Nat :=
  if input = [] then []
  else
    u32be input.length ++ u16be (huffFreqPairs input).length ++
      (ord.map (fun b => b :: u32be (input.count b))).flatten ++
      u32be (packBitsGo
        ((input.map (fun b =>
          (((buildCodes (buildHuffmanTree (huffFreqPairs input))).lookup b).getD []))).flatten)
        0 0).length ++
      packBitsGo
        ((input.map (fun b =>
          (((buildCodes (buildHuffmanTree (huffFreqPairs input))).lookup b).getD []))).flatten)
        0 0

/-- Embeds `huffman::compress` with the ascending iteration order as the
    canonical representative of the unspecified `HashMap` order. -/
def huffmanCompress (input : List Nat) : List Nat :=
  huffmanCompressOrd (huffDistinct input) input

/-- Reads the `dict_len` header records `(byte, 4-byte big-endian freq)` of
    `huffman::decompress` from offset `idx`; `none` models the slice panic
    on truncated input.  Returns the records in stream order and the offset
    after them. -/
def huffReadRecs (data : List Nat) (idx n : Nat) : Option (List (Nat × Nat) × Nat) :=
  match n with
  | 0 => some ([], idx)
  | k + 1 =>
    match data.get? idx, readU32be data (idx + 1) with
    | some b, some f => (huffReadRecs data (idx + 5) k).map (fun p => ((b, f) :: p.1, p.2))
    | _, _ => none

/-- Rebuilds the decompressor frequency map from the transmitted records
    (later inserts overwrite earlier ones) and sorts it by byte, exactly as
    `build_huffman_tree` does. -/
def huffFreqFromRecs (recs : List (Nat × Nat)) : List (Nat × Nat) :=
  (List.range 256).filterMap (fun b => (recs.reverse.lookup b).map (fun f => (b, f)))

/-- All bits of the packed payload, MSB-first per byte. -/
def bitsOfBytes (packed : List Nat) : List Bool :=
  (packed.map (fun p => (List.range 8).map (fun i => decide (p / 2 ^ (7 - i) % 2 = 1)))).flatten

/-- The bit-walking loop of `huffman::decompress`: descend from the root,
    emit a byte and restart at the root on reaching a leaf, stop once
    `original_len` bytes have been produced.  A step taken from a leaf root
    lands on the absent child (`None`) and every later iteration does
    nothing, exactly as in the source. -/
def huffWalk (root : Option HNode) (bits : List Bool) (cur : Option HNode)
    (acc : List Nat) (olen : Nat) : List Nat :=
  match bits with
  | [] => acc
  | bit :: rest =>
    match cur with
    | none => huffWalk root rest none acc olen
    | some (.leaf _ _) => huffWalk root rest none acc olen
    | some (.node _ l r) =>
      match if bit then r else l with
      | .leaf _ b =>
        if acc.length + 1 = olen then acc ++ [b]
        else huffWalk root rest root (acc ++ [b]) olen
      | .node f2 l2 r2 => huffWalk root rest (some (.node f2 l2 r2)) acc olen

/-- Embeds `huffman::decompress`; `none` models the header-slicing panics on
    truncated input. -/
def huffmanDecompress (input : List Nat) : Option (List Nat) :=
  if input = [] then some []
  else
    match readU32be input 0 with
    | none => none
    | some olen =>
      match readU16be input 4 with
      | none => none
      | some dictLen =>
        match huffReadRecs input 6 dictLen with
        | none => none
        | some rp =>
          match readU32be input rp.2 with
          | none => none
          | some dataLen =>
            if input.length < rp.2 + 4 + dataLen then none
            else
              some (huffWalk (buildHuffmanTree (huffFreqFromRecs rp.1))
                (bitsOfBytes ((input.drop (rp.2 + 4)).take dataLen))
                (buildHuffmanTree (huffFreqFromRecs rp.1)) [] olen)

/-- Modelled from the spec: the tree construction the specification
    describes, with a sorted list as the priority queue — repeatedly merge
    the two nodes of lowest frequency, ties between equal-frequency nodes
    broken by ASCENDING byte value (internal nodes as byte value 0), the
    first node taken becoming the left child.  Used only to compare the
    spec wording against `buildHuffmanTree`. -/
def specAscInsert (x : HNode) : List HNode → List HNode
  | [] => [x]
  | y :: t =>
    if x.freq < y.freq ∨ (x.freq = y.freq ∧ x.byteOr0 < y.byteOr0) then x :: y :: t
    else y :: specAscInsert x t

/-- Modelled from the spec: the repeated merge over the ascending-ordered
    queue. -/
def specAscMerge : List HNode → Option HNode
  | [] => none
  | [x] => some x
  | x :: y :: t => specAscMerge (specAscInsert (.node (x.freq + y.freq) x y) t)
termination_by l => l.length
decreasing_by
  have : ∀ (z : HNode) (l : List HNode), (specAscInsert z l).length = l.length + 1 := by
    intro z l
    induction l with
    | nil => rfl
    | cons y t ih =>
      by_cases hc : z.freq < y.freq ∨ (z.freq = y.freq ∧ z.byteOr0 < y.byteOr0)
      · rw [specAscInsert, if_pos hc]; simp
      · rw [specAscInsert, if_neg hc]; simp [ih]
  simp [this]

/-- Modelled from the spec: build the Huffman tree by the specified
    ascending-tie-break repeated merge. -/
def specBuildAsc (pairs : List (Nat × Nat)) : Option HNode :=
  specAscMerge (pairs.foldl (fun l p => specAscInsert (.leaf p.2 p.1) l) [])

/-! ## Orchestrator (`src/processing.rs`) -/

/-- The `Algorithm` enum. -/
inductive Algorithm where
  | rle
  | lz77
  | lz4
  | lzw
  | hf
deriving DecidableEq, Repr

/-- The per-algorithm compressor dispatch of `processing::compress`. -/
def algCompress : Algorithm → List Nat → List Nat
  | .rle => rleCompress
  | .lz77 => lz77Compress
  | .lz4 => lz4Compress
  | .lzw => lzwCompress
  | .hf => huffmanCompress

/-- Rust `slice::chunks`: successive sub-slices of length `cs` (the last one
    shorter).  Callers must ensure `cs ≠ 0` (Rust panics otherwise; the
    orchestrator models that panic at its own level). -/
def chunksOf (cs : Nat) (l : List Nat) : List (List Nat) :=
  if l = [] then []
  else if cs = 0 then []
  else l.take cs :: chunksOf cs (l.drop cs)
termination_by l.length
decreasing_by
  rename_i hne hcs
  have : 0 < l.length := List.length_pos.mpr hne
  simp only [List.length_drop]
  omega

/-- Embeds `processing::compress`.  In the multithreaded branch each chunk
    is compressed by an independent worker and the results are joined in
    chunk order, which is the sequential concatenation below; `none` models
    the `slice::chunks` panic when `chunk_size` is 0, i.e. when the input is
    empty. -/
def processingCompress (input : List Nat) (alg : Algorithm) (mt : Bool) : Option (List Nat) :=
  if mt = true ∧ alg ≠ .hf ∧ alg ≠ .lzw then
    if (input.length + 3) / 4 = 0 then none
    else some ((chunksOf ((input.length + 3) / 4) input).map (algCompress alg)).flatten
  else some (algCompress alg input)

/-! ## Heap verification predicates

`IsHeap` is the `BinaryHeap` representation invariant (every non-root
element is at most its parent under the `Node` ordering); the `Almost…`
predicates are the intermediate states of the sift procedures. -/

/-- The binary-heap invariant of the `BinaryHeap` backing array. -/
def IsHeap (d : List HNode) : Prop :=
  ∀ j < d.length, 0 < j → hCmp (d.getD j default) (d.getD ((j - 1) / 2) default) ≠ .gt

/-- State during `sift_up`: every parent edge holds except those incident to
    `pos`, and the children of `pos` are bounded by the grandparent. -/
def AlmostUp (d : List HNode) (pos : Nat) : Prop :=
  pos < d.length ∧
  (∀ j < d.length, 0 < j → j ≠ pos →
    hCmp (d.getD j default) (d.getD ((j - 1) / 2) default) ≠ .gt) ∧
  (∀ j < d.length, 0 < j → (j - 1) / 2 = pos → 0 < pos →
    hCmp (d.getD j default) (d.getD ((pos - 1) / 2) default) ≠ .gt)

/-- State during phase one of `sift_down_to_bottom`: a hole at `hole` whose
    slot content is stale; edges not incident to the hole hold, and the
    children of the hole are bounded by its parent. -/
def HoleDown (d : List HNode) (hole : Nat) : Prop :=
  hole < d.length ∧
  (∀ j < d.length, 0 < j → j ≠ hole → (j - 1) / 2 ≠ hole →
    hCmp (d.getD j default) (d.getD ((j - 1) / 2) default) ≠ .gt) ∧
  (∀ j < d.length, 0 < j → (j - 1) / 2 = hole → 0 < hole →
    hCmp (d.getD j default) (d.getD ((hole - 1) / 2) default) ≠ .gt)

/-- State during phase two of `sift_down_to_bottom` (sifting the extracted
    element `x` up from the bottom hole): edges not incident to the hole
    hold, and the children of the hole are bounded both by `x` and by the
    hole's parent. -/
def AlmostIns (d : List HNode) (x : HNode) (pos : Nat) : Prop :=
  pos < d.length ∧
  (∀ j < d.length, 0 < j → j ≠ pos → (j - 1) / 2 ≠ pos →
    hCmp (d.getD j default) (d.getD ((j - 1) / 2) default) ≠ .gt) ∧
  (∀ j < d.length, 0 < j → (j - 1) / 2 = pos →
    hCmp (d.getD j default) x ≠ .gt ∧
      (0 < pos → hCmp (d.getD j default) (d.getD ((pos - 1) / 2) default) ≠ .gt))

/-! ## LZW verification infrastructure

Abstraction functions and predicates used to prove the LZW round-trip: the
bit streams denoted by writer and reader states, the compressor loop with
the emitted code sequence made explicit (in place of the `BitWriter`), and
the synchronization invariant coupling the compressor and decompressor
dictionaries. -/

/-- The `n`-bit most-significant-bit-first representation of `v`. -/
def bitsN (v n : Nat) : List Nat :=
  (List.range n).map (fun i => v / 2 ^ (n - 1 - i) % 2)

/-- All bits of a byte list, MSB-first within each byte. -/
def flatBits (bytes : List Nat) : List Nat :=
  (bytes.map (fun b => bitsN b 8)).flatten

/-- The bit stream denoted by a `BitWriter` state: the emitted bytes
    followed by the pending bits. -/
def wBits (st : BW) : List Nat :=
  flatBits st.out ++ bitsN st.cur st.pos

/-- Well-formedness of a `BitWriter` state. -/
def BWinv (st : BW) : Prop :=
  st.cur < 2 ^ st.pos ∧ st.pos < 8

/-- The bit stream still unread by a `BitReader` state: the unconsumed low
    bits of the current byte followed by the remaining bytes. -/
def rBits (st : BR) : List Nat :=
  bitsN (st.cur % 2 ^ (8 - st.pos)) (8 - st.pos) ++ flatBits st.bytes

/-- The value of an MSB-first bit list under the reader accumulator
    (a u16, hence the modulus). -/
def valN (bs : List Nat) : Nat :=
  bs.foldl (fun a b => a * 2 % 65536 + b) 0

/-- The value of an MSB-first bit list without truncation. -/
def valP (bs : List Nat) : Nat :=
  bs.foldl (fun a b => a * 2 + b) 0

/-- The bit stream of a 12-bit code sequence. -/
def codeGroups (ks : List Nat) : List Nat :=
  (ks.map (fun k => bitsN k 12)).flatten

/-- Writing a sequence of 12-bit codes with the `BitWriter`. -/
def wr (bw : BW) (ks : List Nat) : BW :=
  ks.foldl (fun b k => bwWriteBits b k 12) bw

/-- The `lzw::compress` loop state with the emitted code sequence in place
    of the `BitWriter`. -/
structure LzwA where
  dict : List (List Nat × Nat)
  size : Nat
  w : List Nat
  codes : List Nat

/-- `lzwCompressStep` with the emitted code recorded instead of written. -/
def lzwAStep (st : LzwA) (c : Nat) : LzwA :=
  if ((st.dict.lookup (st.w ++ [c])).isSome) then ⟨st.dict, st.size, st.w ++ [c], st.codes⟩
  else
    ⟨if st.size < 4096 then (st.w ++ [c], st.size) :: st.dict else st.dict,
      if st.size < 4096 then st.size + 1 else st.size,
      [c],
      match st.dict.lookup st.w with
      | some code => st.codes ++ [code]
      | none => st.codes⟩

/-- The initial compressor state. -/
def lzwAInit : LzwA := ⟨lzwSeedDict, 256, [], []⟩

/-- The whole code sequence `lzw::compress` emits: the loop codes followed
    by the final code for the pending `w`. -/
def lzwCodes (input : List Nat) : List Nat :=
  (input.foldl lzwAStep lzwAInit).codes ++
    (if (input.foldl lzwAStep lzwAInit).w = [] then []
     else match (input.foldl lzwAStep lzwAInit).dict.lookup
         (input.foldl lzwAStep lzwAInit).w with
       | some code => [code]
       | none => [])

/-- The synchronization invariant between the compressor state
    (`dc`, `s`, `w` — dictionary, size, pending sequence) and the
    decompressor state (`dd`, `sD`, `wD`) after the decompressor has
    consumed every code emitted so far.  The decompressor's dictionary lags
    one insertion behind: the compressor's newest entry decodes the
    just-emitted code's sequence extended by the first byte of the pending
    `w`; once the cap is reached the dictionaries coincide. -/
def LzwSync (dc : List (List Nat × Nat)) (s : Nat) (w : List Nat)
    (dd : List (Nat × List Nat)) (sD : Nat) (wD : List Nat) : Prop :=
  wD ≠ [] ∧
  (∀ p ∈ dd, p.1 < sD ∧ p.2 ≠ []) ∧
  (dd.map Prod.fst).Nodup ∧
  (∀ p ∈ dc, p.2 < s) ∧
  (dc.map Prod.fst).Nodup ∧
  (∀ b : Nat, b < 256 → ([b], b) ∈ dc) ∧
  (dc.lookup w).isSome ∧
  ((∃ c wrest, w = c :: wrest ∧ s = sD + 1 ∧ sD < 4096 ∧
      dc.map Prod.swap = (sD, wD ++ [c]) :: dd) ∨
    (s = sD ∧ sD = 4096 ∧ dc.map Prod.swap = dd ∧ w ≠ []))

/-! # Theorems -/

/-! ## List helpers -/

theorem get?_eq_some_getD (l : List Nat) (i : Nat) (h : i < l.length) :
    l.get? i = some (l.getD i 0) := by
  rw [List.getD_eq_getElem?_getD, List.get?_eq_getElem?, List.getElem?_eq_getElem h]
  rfl

/-! ## Concrete Huffman evaluations shared by several proofs -/

theorem huffFreqPairs_A : huffFreqPairs [65] = [(65, 1)] := by decide

theorem buildTree_single : buildHuffmanTree [(65, 1)] = some (.leaf 1 65) := by
  rw [buildHuffmanTree]
  simp only [List.foldl_cons, List.foldl_nil]
  have hpush : heapPush [] (HNode.leaf 1 65) = [HNode.leaf 1 65] := by
    simp [heapPush, siftUpGo]
  rw [hpush, hMergeLoop]
  norm_num [heapPop]

theorem huffmanCompress_A :
    huffmanCompress [65] = [0, 0, 0, 1, 0, 1, 65, 0, 0, 0, 1, 0, 0, 0, 0] := by
  have hd : huffDistinct [65] = [65] := by decide
  rw [huffmanCompress, hd, huffmanCompressOrd, if_neg (by decide), huffFreqPairs_A,
    buildTree_single]
  decide

theorem huffmanDecompress_A_output :
    huffmanDecompress [0, 0, 0, 1, 0, 1, 65, 0, 0, 0, 1, 0, 0, 0, 0] = some [] := by
  have hf : huffFreqFromRecs [(65, 1)] = [(65, 1)] := by decide
  simp only [huffmanDecompress, if_neg (show ¬([0,0,0,1,0,1,65,0,0,0,1,0,0,0,0] : List Nat) = []
    by decide)]
  norm_num [readU32be, readU16be, huffReadRecs, hf, buildTree_single, bitsOfBytes, huffWalk]

/-- C1: the claimed invariant `decompress (compress x) = x` for every codec
    fails for the Huffman codec on the single-byte input "A" (byte 65): the
    single-node tree assigns the empty bit code to the only byte, so the
    payload carries zero bits and decompression produces the empty buffer
    instead of "A".  The repository's own test `test_single_byte` asserts
    the round-trip, so the code contradicts its own test suite. -/
theorem c1_huffman_roundtrip_fails_on_single_byte :
    huffmanDecompress (huffmanCompress [65]) = some [] ∧ ([] : List Nat) ≠ [65] := by
  rw [huffmanCompress_A]
  exact ⟨huffmanDecompress_A_output, by decide⟩

/-! ## C4: `lz77::decompress` panics on malformed input -/

/-- C4 counterexample: on the truncated literal block `[1]` and on the
    out-of-range back-reference `[0, 0, 1, 1]` (tag 0, distance 1, length 1
    with no bytes decoded yet), `lz77::decompress` panics — modelled as
    `none` — instead of reporting an error and returning an empty result as
    the claim states. -/
theorem c4_lz77_decompress_panics_cex :
    lz77Decompress [1] = none ∧ lz77Decompress [0, 0, 1, 1] = none := by
  constructor
  · simp +decide [lz77Decompress, lz77DecLoop]
  · simp +decide [lz77Decompress, lz77DecLoop, lz77CopyRef]

/-- C4 amended: `lz77::decompress` terminates on every input (the embedded
    loop is total), but it performs no validation: a match block truncated
    before its 3 payload bytes, a back-reference whose distance exceeds the
    number of bytes decoded so far, and a literal block truncated before its
    payload byte each make it panic (`none`) rather than report the error
    and return an empty result. -/
theorem c4_amended_lz77_decompress_panics_on_malformed (input out : List Nat) (i : Nat)
    (hi : i < input.length) :
    (input.getD i 0 = 0 → input.length ≤ i + 3 → lz77DecLoop input i out = none) ∧
    (∀ d1 d2, input.getD i 0 = 0 → input.get? (i + 1) = some d1 →
      input.get? (i + 2) = some d2 → out.length < d1 * 256 + d2 →
      lz77DecLoop input i out = none) ∧
    (input.getD i 0 ≠ 0 → input.length ≤ i + 1 → lz77DecLoop input i out = none) := by
  refine ⟨?_, ?_, ?_⟩
  · intro h0 htr
    rw [lz77DecLoop, dif_pos hi, if_pos h0]
    have h3 : input.get? (i + 3) = none := by
      rw [List.get?_eq_none]
      omega
    rcases input.get? (i + 1) with _ | d1 <;> rcases input.get? (i + 2) with _ | d2 <;>
      rw [h3]
  · intro d1 d2 h0 h1 h2 hdist
    rw [lz77DecLoop, dif_pos hi, if_pos h0]
    have h3 : i + 3 < input.length ∨ input.length ≤ i + 3 := by omega
    rcases h3 with h3 | h3
    · have hd3 := get?_eq_some_getD input (i + 3) h3
      rw [h1, h2, hd3]
      simp only [if_neg (by omega : ¬ d1 * 256 + d2 ≤ out.length)]
    · have hd3 : input.get? (i + 3) = none := by rw [List.get?_eq_none]; omega
      rw [h1, h2, hd3]
  · intro h0 htr
    rw [lz77DecLoop, dif_pos hi, if_neg h0]
    have h1 : input.get? (i + 1) = none := by rw [List.get?_eq_none]; omega
    rw [h1]

/-- C4 amended witness at a concrete input: `[0]` is a match block truncated
    inside its header, and the loop panics there. -/
theorem c4_amended_witness :
    lz77DecLoop [0] 0 [] = none := by
  have h := c4_amended_lz77_decompress_panics_on_malformed [0] [] 0 (by decide)
  exact h.1 (by decide) (by decide)

/-! ## C5: LZW invalid-code handling -/

/-- C5 counterexample: the two-byte stream `[18, 192]` encodes the single
    12-bit code 300, which is neither a dictionary entry nor the next
    sequential slot (256) — yet, because it is the FIRST code,
    `lzw::decompress` does not report any error: the code decodes as the
    empty sequence (`unwrap_or_else(Vec::new)`) and the call returns
    normally.  Worse, `[18, 193, 0]` (codes 300 then 256) panics on `w[0]`.
    The claim says every such code, including the first, is a reported
    decode error. -/
theorem c5_lzw_first_code_not_validated_cex :
    lzwReadCodes [18, 192] = [300] ∧ lzwDecDict0.lookup 300 = none ∧ (300 : Nat) ≠ 256 ∧
    lzwDecompress [18, 192] = some ([], false) ∧ lzwDecompress [18, 193, 0] = none := by
  refine ⟨by decide, by decide, by decide, ?_, ?_⟩ <;> decide

/-- C5 amended: every code AFTER the first is validated — a non-first code
    that is neither an existing dictionary entry nor exactly the next
    sequential slot makes the loop report the decode error and return empty
    output; an unrecognized FIRST code is not validated: it decodes as the
    empty sequence and the loop continues with no error reported. -/
theorem c5_amended_lzw_code_validation :
    (∀ (rest : List Nat) (dict : List (Nat × List Nat)) (size : Nat) (w res : List Nat)
      (k : Nat), dict.lookup k = none → k ≠ size →
      lzwDecodeLoop (k :: rest) dict size w res = some ([], true)) ∧
    (∀ (input : List Nat) (k0 : Nat) (rest : List Nat),
      lzwReadCodes input = k0 :: rest → lzwDecDict0.lookup k0 = none →
      lzwDecompress input = lzwDecodeLoop rest lzwDecDict0 256 [] []) := by
  constructor
  · intro rest dict size w res k hlook hk
    simp only [lzwDecodeLoop, hlook]
    rw [if_neg hk]
  · intro input k0 rest hcodes hlook
    rw [lzwDecompress, hcodes]
    simp only [hlook, Option.getD_none]

/-- C5 amended witness: the invalid non-first code 300 in `[4, 18, 192, 0]`
    (codes 65 then 300) is reported with empty output, and the invalid first
    code of `[18, 192]` is silently decoded as the empty sequence. -/
theorem c5_amended_witness :
    lzwDecodeLoop [300] lzwDecDict0 256 [65] [65] = some ([], true) ∧
    lzwDecompress [18, 192] = lzwDecodeLoop [] lzwDecDict0 256 [] [] := by
  constructor
  · exact c5_amended_lzw_code_validation.1 [] lzwDecDict0 256 [65] [65] 300
      (by decide) (by decide)
  · exact c5_amended_lzw_code_validation.2 [18, 192] 300 [] (by decide) (by decide)

/-! ## C3: `lz4::decompress` never panics, errors yield empty output -/

theorem lz4DecLoop_total (input : List Nat) :
    ∀ n i out, input.length - i ≤ n →
      ∃ r, lz4DecLoop input i out = some r ∧ (r.2 = true → r.1 = []) := by
  intro n
  induction n with
  | zero =>
    intro i out h
    rw [lz4DecLoop, dif_neg (by omega)]
    exact ⟨(out, false), rfl, by simp⟩
  | succ n ih =>
    intro i out h
    by_cases hi : i < input.length
    · rw [lz4DecLoop, dif_pos hi]
      by_cases h0 : input.getD i 0 = 0
      · rw [if_pos h0]
        by_cases htr : input.length ≤ i + 3
        · rw [if_pos htr]
          exact ⟨([], true), rfl, fun _ => rfl⟩
        · rw [if_neg htr]
          rw [get?_eq_some_getD input (i + 1) (by omega),
            get?_eq_some_getD input (i + 2) (by omega),
            get?_eq_some_getD input (i + 3) (by omega)]
          dsimp only
          by_cases hoff : input.getD (i + 1) 0 + input.getD (i + 2) 0 * 256 = 0 ∨
              out.length < input.getD (i + 1) 0 + input.getD (i + 2) 0 * 256
          · rw [if_pos hoff]
            exact ⟨([], true), rfl, fun _ => rfl⟩
          · rw [if_neg hoff]
            cases hcopy : lz4Copy out
              (out.length - (input.getD (i + 1) 0 + input.getD (i + 2) 0 * 256))
              (input.getD (i + 3) 0) with
            | none => exact ⟨([], true), rfl, fun _ => rfl⟩
            | some out1 => exact ih (i + 4) out1 (by omega)
      · rw [if_neg h0]
        by_cases h1 : input.getD i 0 = 1
        · rw [if_pos h1]
          by_cases htr : input.length ≤ i + 1
          · rw [if_pos htr]
            exact ⟨([], true), rfl, fun _ => rfl⟩
          · rw [if_neg htr, get?_eq_some_getD input (i + 1) (by omega)]
            exact ih (i + 2) (out ++ [input.getD (i + 1) 0]) (by omega)
        · rw [if_neg h1]
          exact ⟨([], true), rfl, fun _ => rfl⟩
    · rw [lz4DecLoop, dif_neg hi]
      exact ⟨(out, false), rfl, by simp⟩

/-- C3: `lz4::decompress` never panics — for every input the embedded loop
    (in which every indexed read is modelled partially) returns a result —
    and whenever one of the error branches ran the returned buffer is empty.
    Moreover each malformed situation the claim lists does take an error
    branch: a match header truncated before its 3 payload bytes, a match
    offset that is zero or exceeds the bytes already produced, a literal
    block truncated before its byte, and a tag byte other than 0 or 1. -/
theorem c3_lz4_decompress_no_panic_errors_empty (input : List Nat) :
    (∃ r, lz4Decompress input = some r ∧ (r.2 = true → r.1 = [])) ∧
    (∀ i out, i < input.length →
      ((input.getD i 0 = 0 ∧ input.length ≤ i + 3) →
        lz4DecLoop input i out = some ([], true)) ∧
      (input.getD i 0 = 0 → i + 3 < input.length →
        (input.getD (i + 1) 0 + input.getD (i + 2) 0 * 256 = 0 ∨
         out.length < input.getD (i + 1) 0 + input.getD (i + 2) 0 * 256) →
        lz4DecLoop input i out = some ([], true)) ∧
      ((input.getD i 0 = 1 ∧ input.length ≤ i + 1) →
        lz4DecLoop input i out = some ([], true)) ∧
      ((input.getD i 0 ≠ 0 ∧ input.getD i 0 ≠ 1) →
        lz4DecLoop input i out = some ([], true))) := by
  constructor
  · exact lz4DecLoop_total input input.length 0 [] (by omega)
  · intro i out hi
    refine ⟨?_, ?_, ?_, ?_⟩
    · intro ⟨h0, htr⟩
      rw [lz4DecLoop, dif_pos hi, if_pos h0, if_pos htr]
    · intro h0 hlt hoff
      rw [lz4DecLoop, dif_pos hi, if_pos h0, if_neg (by omega),
        get?_eq_some_getD input (i + 1) (by omega),
        get?_eq_some_getD input (i + 2) (by omega),
        get?_eq_some_getD input (i + 3) (by omega)]
      dsimp only
      rw [if_pos hoff]
    · intro ⟨h1, htr⟩
      rw [lz4DecLoop, dif_pos hi, if_neg (by rw [h1]; decide), if_pos h1, if_pos htr]
    · intro ⟨h0, h1⟩
      rw [lz4DecLoop, dif_pos hi, if_neg h0, if_neg h1]

/-- C3 witness: the theorem applied to the corrupted stream
    `[0, 9, 0, 4]` — a match block with offset 9 against an empty output —
    yields the reported-error empty result. -/
theorem c3_witness :
    lz4DecLoop [0, 9, 0, 4] 0 [] = some ([], true) ∧
    (∃ r, lz4Decompress [0, 9, 0, 4] = some r ∧ (r.2 = true → r.1 = [])) := by
  constructor
  · exact ((c3_lz4_decompress_no_panic_errors_empty [0, 9, 0, 4]).2 0 [] (by decide)).2.1
      (by decide) (by decide) (by decide)
  · exact (c3_lz4_decompress_no_panic_errors_empty [0, 9, 0, 4]).1

/-! ## C9: parallel compression -/

theorem chunksOf_nil (cs : Nat) : chunksOf cs [] = [] := by
  rw [chunksOf]
  simp

theorem chunksOf_cons (cs : Nat) (l : List Nat) (h : l ≠ []) (hcs : cs ≠ 0) :
    chunksOf cs l = l.take cs :: chunksOf cs (l.drop cs) := by
  rw [chunksOf, if_neg h, if_neg hcs]

theorem chunksOf_flatten_four (C : List Nat → List Nat) (hC : C [] = []) (cs : Nat)
    (hcs : 0 < cs) (l : List Nat) (hlen : l.length ≤ 4 * cs) :
    ((chunksOf cs l).map C).flatten =
      C (l.take cs) ++ (C ((l.drop cs).take cs) ++ (C ((l.drop (2 * cs)).take cs) ++
        C ((l.drop (3 * cs)).take cs))) := by
  have e2 : l.drop (2 * cs) = (l.drop cs).drop cs := by
    rw [List.drop_drop, two_mul]
  have e3 : l.drop (3 * cs) = ((l.drop cs).drop cs).drop cs := by
    rw [List.drop_drop, List.drop_drop]
    congr 1
    omega
  by_cases h1 : l = []
  · subst h1
    simp [chunksOf_nil, hC]
  · rw [chunksOf_cons cs l h1 (by omega)]
    simp only [List.map_cons, List.flatten_cons]
    congr 1
    by_cases h2 : l.drop cs = []
    · rw [h2, chunksOf_nil]
      rw [e2, e3, h2]
      simp [hC]
    · rw [chunksOf_cons cs _ h2 (by omega)]
      simp only [List.map_cons, List.flatten_cons]
      congr 1
      by_cases h3 : (l.drop cs).drop cs = []
      · rw [h3, chunksOf_nil]
        rw [e2, e3, h3]
        simp [hC]
      · rw [chunksOf_cons cs _ h3 (by omega)]
        simp only [List.map_cons, List.flatten_cons]
        rw [e2, e3]
        congr 1
        have h4 : ((l.drop cs).drop cs).drop cs ≠ [] →
            (((l.drop cs).drop cs).drop cs).length ≤ cs := by
          intro _
          simp only [List.length_drop]
          omega
        by_cases h5 : ((l.drop cs).drop cs).drop cs = []
        · rw [h5, chunksOf_nil]
          simp [hC]
        · rw [chunksOf_cons cs _ h5 (by omega)]
          have h6 : (((l.drop cs).drop cs).drop cs).drop cs = [] := by
            rw [← List.length_eq_zero]
            simp only [List.length_drop]
            omega
          rw [h6, chunksOf_nil]
          have h7 : (((l.drop cs).drop cs).drop cs).take cs =
              ((l.drop cs).drop cs).drop cs := by
            apply List.take_of_length_le
            exact h4 h5
          simp [h7]

theorem algCompress_nil_tag (alg : Algorithm)
    (halg : alg = .rle ∨ alg = .lz77 ∨ alg = .lz4) : algCompress alg [] = [] := by
  rcases halg with h | h | h <;> subst h
  · show rleCompressLoop [] 0 = []
    rw [rleCompressLoop]
    simp
  · show lz77CompressLoop [] 0 = []
    rw [lz77CompressLoop]
    simp
  · show lz4CompressLoop [] (List.replicate 65536 none) 0 = []
    rw [lz4CompressLoop]
    simp

/-- C9 counterexample: with the parallel flag set and an empty input,
    `processing::compress` calls `input.chunks(0)` — `chunk_size` is
    `ceil(0/4) = 0` — and `slice::chunks` panics on a zero chunk size
    (modelled `none`); the claim instead requires the concatenation of the
    per-chunk outputs, which for the empty input is `some []`. -/
theorem c9_parallel_empty_input_panics_cex :
    processingCompress [] Algorithm.rle true = none ∧
    processingCompress [] Algorithm.rle true ≠ some [] := by
  constructor
  · rw [processingCompress, if_pos (by decide), if_pos (by decide)]
  · rw [processingCompress, if_pos (by decide), if_pos (by decide)]
    decide

/-- C9 amended: for every NON-EMPTY input and each of RLE, LZ77 and
    LZ4-style, `processing::compress` with the parallel flag splits the
    input into the contiguous chunks of size `ceil(len/4)` (at most four;
    trailing chunks beyond the input are empty and contribute nothing) and
    returns the concatenation, in original order, of the single-threaded
    compression of each chunk; on the empty input it panics instead. -/
theorem c9_amended_parallel_is_chunkwise_concat (input : List Nat) (alg : Algorithm)
    (hne : input ≠ []) (halg : alg = .rle ∨ alg = .lz77 ∨ alg = .lz4) :
    processingCompress input alg true =
      some (algCompress alg (input.take ((input.length + 3) / 4)) ++
        (algCompress alg ((input.drop ((input.length + 3) / 4)).take ((input.length + 3) / 4)) ++
          (algCompress alg
            ((input.drop (2 * ((input.length + 3) / 4))).take ((input.length + 3) / 4)) ++
            algCompress alg
              ((input.drop (3 * ((input.length + 3) / 4))).take ((input.length + 3) / 4))))) := by
  have hlen : 0 < input.length := List.length_pos.mpr hne
  have hcond : true = true ∧ alg ≠ Algorithm.hf ∧ alg ≠ Algorithm.lzw := by
    rcases halg with h | h | h <;> subst h <;> exact ⟨rfl, by decide, by decide⟩
  rw [processingCompress, if_pos hcond, if_neg (by omega)]
  congr 1
  exact chunksOf_flatten_four (algCompress alg) (algCompress_nil_tag alg halg)
    ((input.length + 3) / 4) (by omega) input (by omega)

/-- C9 amended witness: a 5-byte input with RLE — chunk size 2, chunks
    `AA`, `AB`, `C` and an empty fourth chunk. -/
theorem c9_amended_witness :
    processingCompress [65, 65, 65, 66, 67] Algorithm.rle true =
      some (algCompress Algorithm.rle [65, 65] ++ (algCompress Algorithm.rle [65, 66] ++
        (algCompress Algorithm.rle [67] ++ algCompress Algorithm.rle []))) := by
  have h := c9_amended_parallel_is_chunkwise_concat [65, 65, 65, 66, 67] Algorithm.rle
    (by decide) (Or.inl rfl)
  exact h

/-! ## C2: archive serialization round-trip -/

theorem readU32le_u32le (n : Nat) (rest : List Nat) :
    readU32le (u32le n ++ rest) 0 = some (n % 4294967296) := by
  simp only [readU32le, u32le, List.cons_append, List.drop_zero]
  congr 1
  omega

theorem readU32le_at_len (pre rest : List Nat) (k : Nat) :
    readU32le (pre ++ rest) (pre.length + k) = readU32le rest k := by
  rw [readU32le, readU32le, List.drop_append]

theorem readU32le_skip4 (m : Nat) (rest : List Nat) (k : Nat) :
    readU32le (u32le m ++ rest) (4 + k) = readU32le rest k := by
  have h := readU32le_at_len (u32le m) rest k
  rw [show (u32le m).length = 4 from rfl] at h
  exact h

theorem drop_skip4 (m : Nat) (rest : List Nat) (k : Nat) :
    (u32le m ++ rest).drop (4 + k) = rest.drop k := by
  have h : (u32le m ++ rest).drop ((u32le m).length + k) = rest.drop k :=
    List.drop_append k
  rw [show (u32le m).length = 4 from rfl] at h
  exact h

theorem drop_at_len (pre rest : List Nat) (k : Nat) :
    (pre ++ rest).drop (pre.length + k) = rest.drop k :=
  List.drop_append k

theorem dirEntryToBytes_length (e : DirEntry) :
    (dirEntryToBytes e).length = 12 + e.path.length + e.data.length := by
  simp [dirEntryToBytes, u32le]
  omega

theorem bytesToDirEntry_roundtrip (e : DirEntry) (hval : validUtf8 e.path = true)
    (hperm : e.permissions < 4294967296)
    (hrec : 12 + e.path.length + e.data.length < 4294967296) :
    bytesToDirEntry (dirEntryToBytes e) = .ok e := by
  obtain ⟨path, data, perms⟩ := e
  simp only [DirEntry.path, DirEntry.data, DirEntry.permissions] at hval hperm hrec
  have hB : dirEntryToBytes ⟨path, data, perms⟩ =
      u32le perms ++ (u32le path.length ++ (path ++ (u32le data.length ++ data))) := by
    simp [dirEntryToBytes, List.append_assoc]
  rw [hB]
  have hlenB : (u32le perms ++ (u32le path.length ++ (path ++
      (u32le data.length ++ data)))).length = 12 + path.length + data.length := by
    simp [u32le]
    omega
  have r0 : readU32le (u32le perms ++ (u32le path.length ++ (path ++
      (u32le data.length ++ data)))) 0 = some perms := by
    rw [readU32le_u32le, Nat.mod_eq_of_lt hperm]
  have r4 : readU32le (u32le perms ++ (u32le path.length ++ (path ++
      (u32le data.length ++ data)))) 4 = some path.length := by
    rw [show (4 : Nat) = 4 + 0 from rfl, readU32le_skip4, readU32le_u32le,
      Nat.mod_eq_of_lt (by omega)]
  have rpath : ((u32le perms ++ (u32le path.length ++ (path ++
      (u32le data.length ++ data)))).drop 8).take path.length = path := by
    rw [show (8 : Nat) = 4 + 4 from rfl, drop_skip4,
      show (4 : Nat) = 4 + 0 from rfl, drop_skip4, List.drop_zero, List.take_left]
  have rdl : readU32le (u32le perms ++ (u32le path.length ++ (path ++
      (u32le data.length ++ data)))) (8 + path.length) = some data.length := by
    rw [show (8 : Nat) + path.length = 4 + (4 + path.length) by omega, readU32le_skip4,
      readU32le_skip4, ← Nat.add_zero path.length, readU32le_at_len, readU32le_u32le,
      Nat.mod_eq_of_lt (by omega)]
  have rdata : ((u32le perms ++ (u32le path.length ++ (path ++
      (u32le data.length ++ data)))).drop (12 + path.length)).take data.length = data := by
    rw [show (12 : Nat) + path.length = 4 + (8 + path.length) by omega, drop_skip4,
      show (8 : Nat) + path.length = 4 + (4 + path.length) by omega, drop_skip4,
      show (4 : Nat) + path.length = path.length + 4 by omega, drop_at_len,
      show (4 : Nat) = 4 + 0 from rfl, drop_skip4, List.drop_zero, List.take_length]
  rw [bytesToDirEntry, r0, r4]
  dsimp only
  rw [if_neg (by rw [hlenB]; omega), rpath]
  rw [if_pos hval, rdl]
  dsimp only
  rw [if_neg (by rw [hlenB]; omega), rdata]

theorem bytesToArchiveLoop_roundtrip (entries : List DirEntry) :
    ∀ pre data : List Nat,
      (∀ e ∈ entries, validUtf8 e.path = true ∧ e.permissions < 4294967296 ∧
        12 + e.path.length + e.data.length < 4294967296) →
      data = pre ++ (entries.map
        (fun e => u32le (dirEntryToBytes e).length ++ dirEntryToBytes e)).flatten →
      bytesToArchiveLoop data pre.length entries.length = .ok entries := by
  induction entries with
  | nil => intro pre data _ _; rfl
  | cons e es ih =>
    intro pre data hents hdata
    obtain ⟨hval, hperm, hrec⟩ := hents e (by simp)
    have hrlen : (dirEntryToBytes e).length = 12 + e.path.length + e.data.length :=
      dirEntryToBytes_length e
    have hdata2 : data = pre ++ (u32le (dirEntryToBytes e).length ++ (dirEntryToBytes e ++
        (es.map (fun x => u32le (dirEntryToBytes x).length ++ dirEntryToBytes x)).flatten)) := by
      rw [hdata]
      simp [List.append_assoc]
    have hlen : data.length = pre.length + 4 + (dirEntryToBytes e).length +
        ((es.map (fun x =>
          u32le (dirEntryToBytes x).length ++ dirEntryToBytes x)).flatten).length := by
      rw [hdata2]
      simp [u32le]
      omega
    rw [bytesToArchiveLoop.eq_def]
    simp only [List.length_cons]
    rw [if_neg (by omega)]
    have hread : readU32le data pre.length = some (dirEntryToBytes e).length := by
      rw [hdata2]
      have h := readU32le_at_len pre (u32le (dirEntryToBytes e).length ++ (dirEntryToBytes e ++
        (es.map (fun x =>
          u32le (dirEntryToBytes x).length ++ dirEntryToBytes x)).flatten)) 0
      rw [Nat.add_zero] at h
      rw [h, readU32le_u32le, Nat.mod_eq_of_lt (by omega)]
    rw [hread]
    dsimp only
    rw [if_neg (by omega)]
    have hslice : (data.drop (pre.length + 4)).take (dirEntryToBytes e).length =
        dirEntryToBytes e := by
      rw [hdata2]
      have h1 := drop_at_len pre (u32le (dirEntryToBytes e).length ++ (dirEntryToBytes e ++
        (es.map (fun x =>
          u32le (dirEntryToBytes x).length ++ dirEntryToBytes x)).flatten)) 4
      rw [h1]
      have h2 := drop_skip4 (dirEntryToBytes e).length (dirEntryToBytes e ++
        (es.map (fun x =>
          u32le (dirEntryToBytes x).length ++ dirEntryToBytes x)).flatten) 0
      rw [show (4 : Nat) + 0 = 4 from rfl] at h2
      rw [h2, List.drop_zero, List.take_left]
    rw [hslice, bytesToDirEntry_roundtrip e hval hperm hrec]
    have hrec2 : bytesToArchiveLoop data (pre.length + 4 + (dirEntryToBytes e).length)
        es.length = .ok es := by
      have := ih (pre ++ (u32le (dirEntryToBytes e).length ++ dirEntryToBytes e)) data
        (fun x hx => hents x (by simp [hx]))
        (by rw [hdata2]; simp [List.append_assoc])
      simpa [u32le, Nat.add_assoc, Nat.add_comm, Nat.add_left_comm] using this
    rw [hrec2]

/-- C2: serializing any ordered list of entries with `archive_data_to_bytes`
    and deserializing with `bytes_to_archive_data` returns the identical
    list — same count, same order, every path, content and permission value
    unchanged.  The hypotheses are exactly the machine-width side conditions
    of the Rust types: each path is valid UTF-8 (guaranteed by `String`),
    each permission value fits in 32 bits (guaranteed by `u32`), and each
    record and the entry count fit the 32-bit length fields (`as u32` would
    silently truncate beyond, which no realistic archive reaches). -/
theorem c2_archive_roundtrip (entries : List DirEntry)
    (hcount : entries.length < 4294967296)
    (hents : ∀ e ∈ entries, validUtf8 e.path = true ∧ e.permissions < 4294967296 ∧
      12 + e.path.length + e.data.length < 4294967296) :
    bytesToArchiveData (archiveDataToBytes entries) = .ok entries := by
  have hB : archiveDataToBytes entries = u32le entries.length ++ (entries.map
      (fun e => u32le (dirEntryToBytes e).length ++ dirEntryToBytes e)).flatten := rfl
  rw [hB, bytesToArchiveData]
  rw [if_neg (by simp [u32le])]
  rw [readU32le_u32le, Nat.mod_eq_of_lt hcount]
  have h := bytesToArchiveLoop_roundtrip entries (u32le entries.length)
    (u32le entries.length ++ (entries.map
      (fun e => u32le (dirEntryToBytes e).length ++ dirEntryToBytes e)).flatten)
    hents rfl
  rw [show (u32le entries.length).length = 4 from rfl] at h
  exact h

/-- C2 witness: the spec's concrete scenario — a single entry
    `{path: "a.txt", content: "hi", perms: 0o644}` — and a two-entry archive
    with duplicate paths and one empty content. -/
theorem c2_witness :
    bytesToArchiveData (archiveDataToBytes [⟨[97, 46, 116, 120, 116], [104, 105], 420⟩]) =
      .ok [⟨[97, 46, 116, 120, 116], [104, 105], 420⟩] ∧
    bytesToArchiveData (archiveDataToBytes
      [⟨[97], [], 420⟩, ⟨[97], [7, 8], 493⟩]) =
      .ok [⟨[97], [], 420⟩, ⟨[97], [7, 8], 493⟩] := by
  constructor
  · exact c2_archive_roundtrip [⟨[97, 46, 116, 120, 116], [104, 105], 420⟩]
      (by decide) (by decide)
  · exact c2_archive_roundtrip [⟨[97], [], 420⟩, ⟨[97], [7, 8], 493⟩]
      (by decide) (by decide)

/-! ## C7: Huffman compression determinism -/

theorem huffFreqPairs_01 : huffFreqPairs [0, 1] = [(0, 1), (1, 1)] := by decide

theorem buildTree_01 :
    buildHuffmanTree [(0, 1), (1, 1)] = some (.node 2 (.leaf 1 1) (.leaf 1 0)) := by
  rw [buildHuffmanTree]
  simp only [List.foldl_cons, List.foldl_nil]
  have hp1 : heapPush [] (HNode.leaf 1 0) = [HNode.leaf 1 0] := by
    simp [heapPush, siftUpGo]
  have hp2 : heapPush [HNode.leaf 1 0] (HNode.leaf 1 1) =
      [HNode.leaf 1 1, HNode.leaf 1 0] := by
    simp +decide [heapPush, siftUpGo, hCmp, HNode.freq, HNode.byteOr0]
  rw [hp1, hp2, hMergeLoop]
  norm_num
  have hpop1 : heapPop [HNode.leaf 1 1, HNode.leaf 1 0] =
      some (HNode.leaf 1 1, [HNode.leaf 1 0]) := by
    simp +decide [heapPop, sdtbGo, suFinish, hCmp, HNode.freq, HNode.byteOr0]
  have hpop2 : heapPop [HNode.leaf 1 0] = some (HNode.leaf 1 0, []) := by
    simp [heapPop]
  rw [show (heapPopU [HNode.leaf 1 1, HNode.leaf 1 0]) =
      (HNode.leaf 1 1, [HNode.leaf 1 0]) by rw [heapPopU, hpop1]; rfl]
  rw [show (heapPopU [HNode.leaf 1 0]) = (HNode.leaf 1 0, []) by rw [heapPopU, hpop2]; rfl]
  dsimp only [HNode.freq]
  have hp3 : heapPush [] (HNode.node 2 (.leaf 1 1) (.leaf 1 0)) =
      [HNode.node 2 (.leaf 1 1) (.leaf 1 0)] := by
    simp [heapPush, siftUpGo]
  rw [hp3, hMergeLoop]
  norm_num [heapPop]

theorem huffmanCompressOrd_01_asc :
    huffmanCompressOrd [0, 1] [0, 1] =
      [0, 0, 0, 2, 0, 2, 0, 0, 0, 0, 1, 1, 0, 0, 0, 1, 0, 0, 0, 1, 128] := by
  rw [huffmanCompressOrd, if_neg (by decide), huffFreqPairs_01, buildTree_01]
  decide

theorem huffmanCompressOrd_01_desc :
    huffmanCompressOrd [1, 0] [0, 1] =
      [0, 0, 0, 2, 0, 2, 1, 0, 0, 0, 1, 0, 0, 0, 0, 1, 0, 0, 0, 1, 128] := by
  rw [huffmanCompressOrd, if_neg (by decide), huffFreqPairs_01, buildTree_01]
  decide

/-- C7 counterexample: on the input `[0, 1]` the frequency map holds keys
    {0, 1}; both `[0, 1]` and `[1, 0]` are orders a `HashMap` iteration may
    produce (the order is unspecified and varies between runs), and the two
    orders yield different compressed bytes — the 5-byte frequency records
    are emitted in iteration order.  Two runs of `compress` are therefore
    not guaranteed byte-identical. -/
theorem c7_hashmap_order_not_byte_identical_cex :
    ([0, 1] : List Nat).Perm (huffDistinct [0, 1]) ∧
    ([1, 0] : List Nat).Perm (huffDistinct [0, 1]) ∧
    huffmanCompressOrd [0, 1] [0, 1] ≠ huffmanCompressOrd [1, 0] [0, 1] := by
  refine ⟨by decide, by decide, ?_⟩
  rw [huffmanCompressOrd_01_asc, huffmanCompressOrd_01_desc]
  decide

theorem pairsSeg_length (input ord : List Nat) :
    ((ord.map (fun b => b :: u32be (input.count b))).flatten).length = 5 * ord.length := by
  induction ord with
  | nil => rfl
  | cons b t ih =>
    simp only [List.map_cons, List.flatten_cons, List.length_append, ih, List.length_cons]
    rw [show (u32be (input.count b)).length = 4 from rfl]
    omega

theorem compressOrd_take6 (input ord : List Nat) (hin : ¬ input = []) :
    (huffmanCompressOrd ord input).take 6 =
      u32be input.length ++ u16be (huffFreqPairs input).length := by
  rw [huffmanCompressOrd, if_neg hin]
  simp only [List.append_assoc]
  have h1 : (u32be input.length ++ (u16be (huffFreqPairs input).length ++
      (((ord.map (fun b => b :: u32be (input.count b))).flatten) ++
        (u32be (packBitsGo ((input.map (fun b =>
          (((buildCodes (buildHuffmanTree (huffFreqPairs input))).lookup b).getD
            []))).flatten) 0 0).length ++
          packBitsGo ((input.map (fun b =>
            (((buildCodes (buildHuffmanTree (huffFreqPairs input))).lookup b).getD
              []))).flatten) 0 0)))).take ((u32be input.length).length + 2) =
      u32be input.length ++ (u16be (huffFreqPairs input).length ++
        (((ord.map (fun b => b :: u32be (input.count b))).flatten) ++
          (u32be (packBitsGo ((input.map (fun b =>
            (((buildCodes (buildHuffmanTree (huffFreqPairs input))).lookup b).getD
              []))).flatten) 0 0).length ++
            packBitsGo ((input.map (fun b =>
              (((buildCodes (buildHuffmanTree (huffFreqPairs input))).lookup b).getD
                []))).flatten) 0 0))).take 2 := List.take_append 2
  rw [show ((u32be input.length).length + 2 : Nat) = 6 from rfl] at h1
  rw [h1]
  congr 1

theorem compressOrd_drop6 (input ord : List Nat) (hin : ¬ input = []) :
    (huffmanCompressOrd ord input).drop 6 =
      ((ord.map (fun b => b :: u32be (input.count b))).flatten) ++
        (u32be (packBitsGo ((input.map (fun b =>
          (((buildCodes (buildHuffmanTree (huffFreqPairs input))).lookup b).getD
            []))).flatten) 0 0).length ++
          packBitsGo ((input.map (fun b =>
            (((buildCodes (buildHuffmanTree (huffFreqPairs input))).lookup b).getD
              []))).flatten) 0 0) := by
  rw [huffmanCompressOrd, if_neg hin]
  simp only [List.append_assoc]
  have h1 := drop_at_len (u32be input.length) (u16be (huffFreqPairs input).length ++
    (((ord.map (fun b => b :: u32be (input.count b))).flatten) ++
      (u32be (packBitsGo ((input.map (fun b =>
        (((buildCodes (buildHuffmanTree (huffFreqPairs input))).lookup b).getD
          []))).flatten) 0 0).length ++
        packBitsGo ((input.map (fun b =>
          (((buildCodes (buildHuffmanTree (huffFreqPairs input))).lookup b).getD
            []))).flatten) 0 0))) 2
  rw [show ((u32be input.length).length + 2 : Nat) = 6 from rfl] at h1
  rw [h1]
  have h2 := drop_at_len (u16be (huffFreqPairs input).length)
    (((ord.map (fun b => b :: u32be (input.count b))).flatten) ++
      (u32be (packBitsGo ((input.map (fun b =>
        (((buildCodes (buildHuffmanTree (huffFreqPairs input))).lookup b).getD
          []))).flatten) 0 0).length ++
        packBitsGo ((input.map (fun b =>
          (((buildCodes (buildHuffmanTree (huffFreqPairs input))).lookup b).getD
            []))).flatten) 0 0)) 0
  rw [show ((u16be (huffFreqPairs input).length).length + 0 : Nat) = 2 from rfl] at h2
  rw [h2, List.drop_zero]

/-- C7 amended: re-running `compress` on the same input always produces the
    same fixed header fields (original length and dictionary size), the same
    packed-payload-length field and the same packed payload — the derived
    codes are fully determined by the byte-value tie-break — but the 5-byte
    `(byte, frequency)` records of the header appear in `HashMap` iteration
    order, which Rust does not fix: across runs that section is only
    guaranteed to be a permutation of the same records, not byte-identical. -/
theorem c7_amended_payload_deterministic_header_perm (input ord1 ord2 : List Nat)
    (h1 : ord1.Perm (huffDistinct input)) (h2 : ord2.Perm (huffDistinct input)) :
    (huffmanCompressOrd ord1 input).take 6 = (huffmanCompressOrd ord2 input).take 6 ∧
    ((huffmanCompressOrd ord1 input).drop 6).drop (5 * (huffDistinct input).length) =
      ((huffmanCompressOrd ord2 input).drop 6).drop (5 * (huffDistinct input).length) ∧
    (((huffmanCompressOrd ord1 input).drop 6).take (5 * (huffDistinct input).length)).Perm
      (((huffmanCompressOrd ord2 input).drop 6).take (5 * (huffDistinct input).length)) := by
  by_cases hin : input = []
  · subst hin
    rw [show huffmanCompressOrd ord1 [] = [] by rw [huffmanCompressOrd, if_pos rfl],
      show huffmanCompressOrd ord2 [] = [] by rw [huffmanCompressOrd, if_pos rfl]]
    exact ⟨rfl, rfl, List.Perm.refl _⟩
  · have hl1 : ord1.length = (huffDistinct input).length := h1.length_eq
    have hl2 : ord2.length = (huffDistinct input).length := h2.length_eq
    refine ⟨?_, ?_, ?_⟩
    · rw [compressOrd_take6 input ord1 hin, compressOrd_take6 input ord2 hin]
    · rw [compressOrd_drop6 input ord1 hin, compressOrd_drop6 input ord2 hin]
      rw [show 5 * (huffDistinct input).length = ((ord1.map
        (fun b => b :: u32be (input.count b))).flatten).length by
          rw [pairsSeg_length]; omega]
      rw [List.drop_left]
      rw [show ((ord1.map (fun b => b :: u32be (input.count b))).flatten).length =
        ((ord2.map (fun b => b :: u32be (input.count b))).flatten).length by
          rw [pairsSeg_length, pairsSeg_length]; omega]
      rw [List.drop_left]
    · rw [compressOrd_drop6 input ord1 hin, compressOrd_drop6 input ord2 hin]
      rw [show 5 * (huffDistinct input).length = ((ord1.map
        (fun b => b :: u32be (input.count b))).flatten).length by
          rw [pairsSeg_length]; omega]
      rw [List.take_left]
      rw [show ((ord1.map (fun b => b :: u32be (input.count b))).flatten).length =
        ((ord2.map (fun b => b :: u32be (input.count b))).flatten).length by
          rw [pairsSeg_length, pairsSeg_length]; omega]
      rw [List.take_left]
      exact ((h1.trans h2.symm).map (fun b => b :: u32be (input.count b))).flatten

/-- C7 amended witness: the two iteration orders of the map for input
    `[0, 1]`. -/
theorem c7_amended_witness :
    (huffmanCompressOrd [0, 1] [0, 1]).take 6 = (huffmanCompressOrd [1, 0] [0, 1]).take 6 ∧
    ((huffmanCompressOrd [0, 1] [0, 1]).drop 6).drop (5 * (huffDistinct [0, 1]).length) =
      ((huffmanCompressOrd [1, 0] [0, 1]).drop 6).drop (5 * (huffDistinct [0, 1]).length) ∧
    (((huffmanCompressOrd [0, 1] [0, 1]).drop 6).take (5 * (huffDistinct [0, 1]).length)).Perm
      (((huffmanCompressOrd [1, 0] [0, 1]).drop 6).take
        (5 * (huffDistinct [0, 1]).length)) :=
  c7_amended_payload_deterministic_header_perm [0, 1] [0, 1] [1, 0] (by decide) (by decide)

/-! ## C10: archive deserialization framing errors -/

theorem readU32le_isSome (data : List Nat) (off : Nat) (h : off + 4 ≤ data.length) :
    ∃ v, readU32le data off = some v := by
  have hlen : 4 ≤ (data.drop off).length := by
    simp only [List.length_drop]
    omega
  rw [readU32le]
  rcases hd : data.drop off with _ | ⟨b0, _ | ⟨b1, _ | ⟨b2, _ | ⟨b3, t⟩⟩⟩⟩ <;>
    rw [hd] at hlen <;> simp at hlen ⊢

/-- C10 counterexample: the buffer
    `[1,0,0,0, 8,0,0,0, 0,0,0,0, 100,0,0,0]` declares one entry whose 8-byte
    record declares a path length of 100; `bytes_to_dir_entry` slices
    `&data[8..108]` out of the 8-byte record and panics, where the claim
    requires a propagated `InvalidData` error. -/
theorem c10_path_length_overrun_panics_cex :
    bytesToArchiveData [1, 0, 0, 0, 8, 0, 0, 0, 0, 0, 0, 0, 100, 0, 0, 0] =
      .panicked ∧
    (SerResult.panicked : SerResult (List DirEntry)) ≠ .invalidData := by
  exact ⟨by decide, by decide⟩

/-- C10 amended: the declared lengths that `bytes_to_archive_data` itself
    checks — a missing 4-byte record-size field and a record size exceeding
    the remaining buffer — produce the structured `InvalidData` error (as
    does a buffer shorter than the 4-byte entry count), but the per-record
    lengths inside `bytes_to_dir_entry` are NOT checked: a declared path
    length or content length exceeding the record makes the slice panic. -/
theorem c10_amended_framing_checked_record_fields_panic :
    (∀ data : List Nat, data.length < 4 → bytesToArchiveData data = .invalidData) ∧
    (∀ (data : List Nat) (off n : Nat), data.length < off + 4 →
      bytesToArchiveLoop data off (n + 1) = .invalidData) ∧
    (∀ (data : List Nat) (off n sz : Nat), off + 4 ≤ data.length →
      readU32le data off = some sz → data.length < off + 4 + sz →
      bytesToArchiveLoop data off (n + 1) = .invalidData) ∧
    (∀ (rec : List Nat) (pl : Nat), 8 ≤ rec.length → readU32le rec 4 = some pl →
      rec.length < 8 + pl → bytesToDirEntry rec = .panicked) ∧
    (∀ (rec : List Nat) (pl dl : Nat), 8 ≤ rec.length → readU32le rec 4 = some pl →
      ¬ rec.length < 8 + pl → validUtf8 ((rec.drop 8).take pl) = true →
      readU32le rec (8 + pl) = some dl → rec.length < 8 + pl + 4 + dl →
      bytesToDirEntry rec = .panicked) := by
  refine ⟨?_, ?_, ?_, ?_, ?_⟩
  · intro data h
    rw [bytesToArchiveData, if_pos h]
  · intro data off n h
    rw [bytesToArchiveLoop, if_pos h]
  · intro data off n sz hle hsz hover
    rw [bytesToArchiveLoop, if_neg (by omega), hsz]
    dsimp only
    rw [if_pos hover]
  · intro rec pl h8 hpl hover
    obtain ⟨p, hp⟩ := readU32le_isSome rec 0 (by omega)
    rw [bytesToDirEntry, hp, hpl]
    dsimp only
    rw [if_pos hover]
  · intro rec pl dl h8 hpl hnover hval hdl hover
    obtain ⟨p, hp⟩ := readU32le_isSome rec 0 (by omega)
    rw [bytesToDirEntry, hp, hpl]
    dsimp only
    rw [if_neg hnover, if_pos hval, hdl]
    dsimp only
    rw [if_pos hover]

/-! ## C6: the heap merge order of `build_huffman_tree` -/

theorem hCmp_gt_iff (a b : HNode) :
    hCmp a b = .gt ↔ (a.freq < b.freq ∨ (a.freq = b.freq ∧ b.byteOr0 < a.byteOr0)) := by
  rw [hCmp]
  rcases Nat.lt_trichotomy b.freq a.freq with h | h | h
  · rw [Nat.compare_eq_lt.mpr h]
    simp
    omega
  · rw [Nat.compare_eq_eq.mpr h]
    rw [show (match Ordering.eq with
      | .eq => compare a.byteOr0 b.byteOr0
      | o => o) = compare a.byteOr0 b.byteOr0 from rfl]
    rw [Nat.compare_eq_gt]
    omega
  · rw [Nat.compare_eq_gt.mpr h]
    simp
    omega

theorem getD_eq_getElem (l : List HNode) (j : Nat) (h : j < l.length) :
    l.getD j default = l[j] := by
  rw [List.getD_eq_getElem?_getD, List.getElem?_eq_getElem h]
  rfl

theorem getD_set_eq (l : List HNode) (i : Nat) (x : HNode) (h : i < l.length) :
    (l.set i x).getD i default = x := by
  rw [List.getD_eq_getElem?_getD, List.getElem?_set_self h]
  rfl

theorem getD_set_ne (l : List HNode) (i j : Nat) (x : HNode) (h : i ≠ j) :
    (l.set i x).getD j default = l.getD j default := by
  rw [List.getD_eq_getElem?_getD, List.getElem?_set_ne h, ← List.getD_eq_getElem?_getD]

theorem getD_dropLast (l : List HNode) (j : Nat) (h : j < l.length - 1) :
    l.dropLast.getD j default = l.getD j default := by
  have h1 : j < l.dropLast.length := by simp [List.length_dropLast]; omega
  have h2 : j < l.length := by omega
  rw [getD_eq_getElem _ _ h1, getD_eq_getElem _ _ h2, List.getElem_dropLast]

theorem getD_append_left (l1 l2 : List HNode) (j : Nat) (h : j < l1.length) :
    (l1 ++ l2).getD j default = l1.getD j default :=
  List.getD_append l1 l2 default j h

theorem isHeap_le_root (d : List HNode) (hd : IsHeap d) :
    ∀ j, j < d.length → hCmp (d.getD j default) (d.getD 0 default) ≠ .gt := by
  intro j
  induction j using Nat.strong_induction_on with
  | _ j ih =>
    intro hj
    by_cases h0 : j = 0
    · subst h0
      rw [Ne, hCmp_gt_iff]
      omega
    · have hpar := hd j hj (by omega)
      have hih := ih ((j - 1) / 2) (by omega) (by omega)
      rw [Ne, hCmp_gt_iff] at hpar hih ⊢
      omega

/-- The value of the double-set used by the sift-up swap. -/
theorem getD_swap (d : List HNode) (pos p2 : Nat) (hpos : pos < d.length)
    (hp2 : p2 < d.length) (hne : p2 ≠ pos) (j : Nat) :
    ((d.set pos (d.getD p2 default)).set p2 (d.getD pos default)).getD j default =
      if j = p2 then d.getD pos default
      else if j = pos then d.getD p2 default
      else d.getD j default := by
  by_cases h1 : j = p2
  · subst h1
    rw [getD_set_eq _ _ _ (by simp [List.length_set]; omega), if_pos rfl]
  · rw [getD_set_ne _ _ _ _ (fun he => h1 he.symm), if_neg h1]
    by_cases h2 : j = pos
    · subst h2
      rw [getD_set_eq _ _ _ hpos, if_pos rfl]
    · rw [getD_set_ne _ _ _ _ (fun he => h2 he.symm), if_neg h2]

theorem siftUpGo_isHeap (d : List HNode) (pos : Nat) (h : AlmostUp d pos) :
    IsHeap (siftUpGo d pos) := by
  induction d, pos using siftUpGo.induct with
  | case1 d pos hc ih =>
    rw [siftUpGo, dif_pos hc]
    apply ih
    obtain ⟨hlen, ha, hb⟩ := h
    obtain ⟨hpos, hgt⟩ := hc
    have hp2lt : (pos - 1) / 2 < pos := by omega
    have hp2len : (pos - 1) / 2 < d.length := by omega
    have hvals := getD_swap d pos ((pos - 1) / 2) hlen hp2len (by omega)
    refine ⟨by simp only [List.length_set]; omega, ?_, ?_⟩
    · intro j hj h0j hjne
      rw [List.length_set, List.length_set] at hj
      rw [hvals j, hvals ((j - 1) / 2), if_neg hjne]
      by_cases hjpos : j = pos
      · -- the risen element is now the parent of the swapped-down value
        have hpj : (j - 1) / 2 = (pos - 1) / 2 := by rw [hjpos]
        rw [if_pos hjpos, if_pos hpj]
        rw [Ne, hCmp_gt_iff]
        rw [hCmp_gt_iff] at hgt
        omega
      · rw [if_neg hjpos]
        by_cases hpj : (j - 1) / 2 = pos
        · -- a child of the old position: bounded by the grandparent value
          rw [if_neg (by omega), if_pos hpj]
          exact hb j hj h0j hpj hpos
        · by_cases hpj2 : (j - 1) / 2 = (pos - 1) / 2
          · -- a child of the new position other than `pos` itself
            rw [if_pos hpj2]
            have h1 := ha j hj h0j hjpos
            rw [hpj2] at h1
            rw [Ne, hCmp_gt_iff] at h1 ⊢
            rw [hCmp_gt_iff] at hgt
            omega
          · -- an edge untouched by the swap
            rw [if_neg hpj2, if_neg hpj]
            exact ha j hj h0j hjpos
    · intro j hj h0j hpj hpos2
      rw [List.length_set, List.length_set] at hj
      have hjgt : (pos - 1) / 2 < j := by omega
      rw [hvals j, hvals (((pos - 1) / 2 - 1) / 2)]
      have hp3a : ((pos - 1) / 2 - 1) / 2 ≠ (pos - 1) / 2 := by omega
      have hp3b : ((pos - 1) / 2 - 1) / 2 ≠ pos := by omega
      rw [if_neg hp3a, if_neg hp3b, if_neg (by omega : ¬ j = (pos - 1) / 2)]
      have h2 := ha ((pos - 1) / 2) hp2len (by omega) (by omega)
      by_cases hjpos : j = pos
      · rw [if_pos hjpos]
        exact h2
      · rw [if_neg hjpos]
        have h1 := ha j hj h0j hjpos
        rw [hpj] at h1
        rw [Ne, hCmp_gt_iff] at h1 h2 ⊢
        omega
  | case2 d pos hc =>
    rw [siftUpGo, dif_neg hc]
    obtain ⟨hlen, ha, hb⟩ := h
    intro j hj h0j
    by_cases hjpos : j = pos
    · subst hjpos
      intro hgt
      exact hc ⟨h0j, hgt⟩
    · exact ha j hj h0j hjpos

theorem getD_set_hole' (d : List HNode) (pos : Nat) (x : HNode) (hh : pos < d.length)
    (j : Nat) :
    (d.set pos x).getD j default = if j = pos then x else d.getD j default := by
  by_cases hj : j = pos
  · subst hj
    rw [getD_set_eq _ _ _ hh, if_pos rfl]
  · rw [getD_set_ne _ _ _ _ (fun he => hj he.symm), if_neg hj]

theorem getD_set_hole (d : List HNode) (hole c : Nat) (hh : hole < d.length) (j : Nat) :
    (d.set hole (d.getD c default)).getD j default =
      if j = hole then d.getD c default else d.getD j default := by
  by_cases hj : j = hole
  · subst hj
    rw [getD_set_eq _ _ _ hh, if_pos rfl]
  · rw [getD_set_ne _ _ _ _ (fun he => hj he.symm), if_neg hj]

theorem sdtbGo_spec (d : List HNode) (hole : Nat) (h : HoleDown d hole) :
    (sdtbGo d hole).2 < d.length ∧ d.length ≤ 2 * (sdtbGo d hole).2 + 1 ∧
    (∀ j < d.length, 0 < j → j ≠ (sdtbGo d hole).2 →
      hCmp ((sdtbGo d hole).1.getD j default) ((sdtbGo d hole).1.getD ((j - 1) / 2) default)
        ≠ .gt) := by
  induction d, hole using sdtbGo.induct with
  | case1 d hole h1 hcmp ih =>
    obtain ⟨hh, ha, hb⟩ := h
    rw [sdtbGo, dif_pos h1, if_pos hcmp]
    have hv := getD_set_hole d hole (2 * hole + 1) hh
    have hnext : HoleDown (d.set hole (d.getD (2 * hole + 1) default)) (2 * hole + 1) := by
      refine ⟨by simp only [List.length_set]; omega, ?_, ?_⟩
      · intro j hj h0j hjc hpjc
        rw [List.length_set] at hj
        rw [hv j, hv ((j - 1) / 2)]
        by_cases hjh : j = hole
        · have h0h : 0 < hole := hjh ▸ h0j
          rw [if_pos hjh, if_neg (by omega : ¬ (j - 1) / 2 = hole)]
          have := hb (2 * hole + 1) (by omega) (by omega) (by omega) h0h
          rw [hjh]
          exact this
        · rw [if_neg hjh]
          by_cases hpj : (j - 1) / 2 = hole
          · -- the sibling of the chosen child, bounded by the greater child
            have hj2 : j = 2 * hole + 2 := by omega
            rw [if_pos hpj, hj2]
            rw [Ne, hCmp_gt_iff]
            rw [hCmp_gt_iff] at hcmp
            omega
          · rw [if_neg hpj]
            exact ha j hj h0j hjh hpj
      · intro j hj h0j hpj hc0
        rw [List.length_set] at hj
        rw [hv j, hv ((2 * hole + 1 - 1) / 2)]
        rw [if_neg (by omega : ¬ j = hole),
          if_pos (by omega : (2 * hole + 1 - 1) / 2 = hole)]
        have := ha j hj h0j (by omega) (by omega)
        rw [hpj] at this
        exact this
    have hres := ih hnext
    rw [List.length_set] at hres
    exact hres
  | case2 d hole h1 hcmp ih =>
    obtain ⟨hh, ha, hb⟩ := h
    rw [sdtbGo, dif_pos h1, if_neg hcmp]
    have hv := getD_set_hole d hole (2 * hole + 2) hh
    have hnext : HoleDown (d.set hole (d.getD (2 * hole + 2) default)) (2 * hole + 2) := by
      refine ⟨by simp only [List.length_set]; omega, ?_, ?_⟩
      · intro j hj h0j hjc hpjc
        rw [List.length_set] at hj
        rw [hv j, hv ((j - 1) / 2)]
        by_cases hjh : j = hole
        · have h0h : 0 < hole := hjh ▸ h0j
          rw [if_pos hjh, if_neg (by omega : ¬ (j - 1) / 2 = hole)]
          have := hb (2 * hole + 2) (by omega) (by omega) (by omega) h0h
          rw [hjh]
          exact this
        · rw [if_neg hjh]
          by_cases hpj : (j - 1) / 2 = hole
          · -- the sibling of the chosen child, bounded by the greater child
            have hj2 : j = 2 * hole + 1 := by omega
            rw [if_pos hpj, hj2]
            exact hcmp
          · rw [if_neg hpj]
            exact ha j hj h0j hjh hpj
      · intro j hj h0j hpj hc0
        rw [List.length_set] at hj
        rw [hv j, hv ((2 * hole + 2 - 1) / 2)]
        rw [if_neg (by omega : ¬ j = hole),
          if_pos (by omega : (2 * hole + 2 - 1) / 2 = hole)]
        have := ha j hj h0j (by omega) (by omega)
        rw [hpj] at this
        exact this
    have hres := ih hnext
    rw [List.length_set] at hres
    exact hres
  | case3 d hole h1 h2 =>
    obtain ⟨hh, ha, hb⟩ := h
    rw [sdtbGo, dif_neg h1, if_pos h2]
    have hv := getD_set_hole d hole (2 * hole + 1) hh
    refine ⟨by omega, by omega, ?_⟩
    intro j hj h0j hjc
    rw [hv j, hv ((j - 1) / 2)]
    by_cases hjh : j = hole
    · have h0h : 0 < hole := hjh ▸ h0j
      rw [if_pos hjh, if_neg (by omega : ¬ (j - 1) / 2 = hole)]
      have := hb (2 * hole + 1) (by omega) (by omega) (by omega) h0h
      rw [hjh]
      exact this
    · rw [if_neg hjh]
      have hpj : ¬ (j - 1) / 2 = hole := by omega
      rw [if_neg hpj]
      exact ha j hj h0j hjh hpj
  | case4 d hole h1 h2 =>
    obtain ⟨hh, ha, hb⟩ := h
    rw [sdtbGo, dif_neg h1, if_neg h2]
    refine ⟨hh, by omega, ?_⟩
    intro j hj h0j hjc
    have hpj : ¬ (j - 1) / 2 = hole := by omega
    exact ha j hj h0j hjc hpj

theorem suFinish_isHeap (d : List HNode) (x : HNode) (pos : Nat) (h : AlmostIns d x pos) :
    IsHeap (suFinish d x pos) := by
  induction d, x, pos using suFinish.induct with
  | case1 d x pos hc ih =>
    rw [suFinish, dif_pos hc]
    apply ih
    obtain ⟨hlen, ha, hb⟩ := h
    obtain ⟨hpos, hgt⟩ := hc
    have hp2len : (pos - 1) / 2 < d.length := by omega
    have hv := getD_set_hole d pos ((pos - 1) / 2) hlen
    refine ⟨by simp only [List.length_set]; omega, ?_, ?_⟩
    · intro j hj h0j hjp2 hpjp2
      rw [List.length_set] at hj
      rw [hv j, hv ((j - 1) / 2)]
      by_cases hjpos : j = pos
      · exact absurd (hjpos.symm ▸ rfl : (j - 1) / 2 = (pos - 1) / 2) hpjp2
      · rw [if_neg hjpos]
        by_cases hpj : (j - 1) / 2 = pos
        · rw [if_pos hpj]
          exact (hb j hj h0j hpj).2 hpos
        · rw [if_neg hpj]
          exact ha j hj h0j hjpos hpj
    · intro j hj h0j hpj
      rw [List.length_set] at hj
      rw [hv j, hv (((pos - 1) / 2 - 1) / 2)]
      rw [if_neg (by omega : ¬ ((pos - 1) / 2 - 1) / 2 = pos)]
      have h2 := ha ((pos - 1) / 2) hp2len
      by_cases hjpos : j = pos
      · rw [if_pos hjpos]
        constructor
        · rw [Ne, hCmp_gt_iff]
          rw [hCmp_gt_iff] at hgt
          omega
        · intro h0p2
          have := ha ((pos - 1) / 2) hp2len (by omega) (by omega) (by omega)
          exact this
      · rw [if_neg hjpos]
        have h1 := ha j hj h0j hjpos (by omega : ¬ (j - 1) / 2 = pos)
        rw [hpj] at h1
        constructor
        · rw [Ne, hCmp_gt_iff]
          rw [hCmp_gt_iff] at hgt
          rw [Ne, hCmp_gt_iff] at h1
          omega
        · intro h0p2
          have h3 := ha ((pos - 1) / 2) hp2len (by omega) (by omega) (by omega)
          rw [Ne, hCmp_gt_iff] at h1 h3 ⊢
          omega
  | case2 d x pos hc =>
    rw [suFinish, dif_neg hc]
    obtain ⟨hlen, ha, hb⟩ := h
    have hv := getD_set_hole' d pos x hlen
    intro j hj h0j
    rw [List.length_set] at hj
    rw [hv j, hv ((j - 1) / 2)]
    by_cases hjpos : j = pos
    · rw [if_pos hjpos]
      have h0p : 0 < pos := hjpos ▸ h0j
      rw [if_neg (by omega : ¬ (j - 1) / 2 = pos)]
      have hle : hCmp x (d.getD ((pos - 1) / 2) default) ≠ .gt := fun hgt => hc ⟨h0p, hgt⟩
      rw [hjpos]
      exact hle
    · rw [if_neg hjpos]
      by_cases hpj : (j - 1) / 2 = pos
      · rw [if_pos hpj]
        exact (hb j hj h0j hpj).1
      · rw [if_neg hpj]
        exact ha j hj h0j hjpos hpj

theorem count_set (l : List HNode) (i : Nat) (a : HNode) (h : i < l.length) (m : HNode) :
    (l.set i a).count m + (if l.getD i default = m then 1 else 0) =
      l.count m + (if a = m then 1 else 0) := by
  have hsplit : l = l.take i ++ l.getD i default :: l.drop (i + 1) := by
    conv_lhs => rw [← List.take_append_drop i l]
    congr 1
    rw [List.drop_eq_getElem_cons h, getD_eq_getElem _ _ h]
  have hc : l.count m = (l.take i).count m +
      ((if l.getD i default = m then 1 else 0) + (l.drop (i + 1)).count m) := by
    conv_lhs => rw [hsplit]
    rw [List.count_append, List.count_cons]
    simp only [beq_iff_eq]
    omega
  rw [List.set_eq_take_append_cons_drop, if_pos h, List.count_append, List.count_cons, hc]
  simp only [beq_iff_eq]
  omega

theorem set_set_perm (d : List HNode) (pos p2 : Nat) (x : HNode) (hne : p2 ≠ pos)
    (hp2 : p2 < d.length) (hpos : pos < d.length) :
    ((d.set pos (d.getD p2 default)).set p2 x).Perm (d.set pos x) := by
  rw [List.perm_iff_count]
  intro m
  have c1 := count_set (d.set pos (d.getD p2 default)) p2 x
    (by simp only [List.length_set]; omega) m
  have e1 : (d.set pos (d.getD p2 default)).getD p2 default = d.getD p2 default :=
    getD_set_ne _ _ _ _ (fun he => hne he.symm)
  rw [e1] at c1
  have c2 := count_set d pos (d.getD p2 default) hpos m
  have c3 := count_set d pos x hpos m
  split_ifs at c1 c2 c3 <;> omega

theorem suFinish_perm (d : List HNode) (x : HNode) (pos : Nat) (h : pos < d.length) :
    (suFinish d x pos).Perm (d.set pos x) := by
  induction d, x, pos using suFinish.induct with
  | case1 d x pos hc ih =>
    rw [suFinish, dif_pos hc]
    have hp2 : (pos - 1) / 2 < d.length := by omega
    have hih := ih (by simp only [List.length_set]; omega)
    exact hih.trans (set_set_perm d pos ((pos - 1) / 2) x (by omega) hp2 h)
  | case2 d x pos hc =>
    rw [suFinish, dif_neg hc]

theorem sdtbGo_perm (d : List HNode) (hole : Nat) :
    ∀ v, ((sdtbGo d hole).1.set (sdtbGo d hole).2 v).Perm (d.set hole v) := by
  induction d, hole using sdtbGo.induct with
  | case1 d hole h1 hcmp ih =>
    intro v
    rw [sdtbGo, dif_pos h1, if_pos hcmp]
    exact (ih v).trans
      (set_set_perm d hole (2 * hole + 1) v (by omega) (by omega) (by omega))
  | case2 d hole h1 hcmp ih =>
    intro v
    rw [sdtbGo, dif_pos h1, if_neg hcmp]
    exact (ih v).trans
      (set_set_perm d hole (2 * hole + 2) v (by omega) (by omega) (by omega))
  | case3 d hole h1 h2 =>
    intro v
    rw [sdtbGo, dif_neg h1, if_pos h2]
    exact set_set_perm d hole (2 * hole + 1) v (by omega) (by omega) (by omega)
  | case4 d hole h1 h2 =>
    intro v
    rw [sdtbGo, dif_neg h1, if_neg h2]

theorem heapPush_isHeap (d : List HNode) (x : HNode) (hd : IsHeap d) :
    IsHeap (heapPush d x) := by
  apply siftUpGo_isHeap
  refine ⟨by simp, ?_, ?_⟩
  · intro j hj h0j hjne
    rw [List.length_append] at hj
    have hjd : j < d.length := by simp at hj; omega
    have hpd : (j - 1) / 2 < d.length := by omega
    rw [getD_append_left _ _ _ hjd, getD_append_left _ _ _ hpd]
    exact hd j hjd h0j
  · intro j hj h0j hpj
    exfalso
    rw [List.length_append] at hj
    simp at hj
    omega

theorem heapPop_spec (d : List HNode) (hd : IsHeap d) (hne : d ≠ []) :
    ∃ p, heapPop d = some p ∧ p.1 = d.getD 0 default ∧ IsHeap p.2 ∧ d.Perm (p.1 :: p.2) := by
  match d, hne with
  | a :: t, _ =>
    rw [heapPop]
    by_cases h0 : (a :: t).dropLast.length = 0
    · rw [if_pos h0]
      have ht : t = [] := by
        simp only [List.length_dropLast, List.length_cons, Nat.add_sub_cancel] at h0
        exact List.length_eq_zero.mp h0
      subst ht
      exact ⟨_, rfl, rfl, fun j hj => by simp at hj, List.Perm.refl _⟩
    · rw [if_neg h0]
      match t, h0 with
      | b :: u, _ =>
        have hitem : (a :: b :: u).getD ((a :: b :: u).length - 1) default =
            (b :: u).getLast (by simp) := by
          rw [show (a :: b :: u).length - 1 = u.length + 1 by simp]
          rw [List.getLast_eq_getElem]
          rw [getD_eq_getElem _ _ (by simp)]
          simp
        have hrest : (a :: b :: u).dropLast = a :: (b :: u).dropLast := by
          simp [List.dropLast]
        -- the hole state fed to phase one
        have hhd : HoleDown ((a :: b :: u).dropLast.set 0
            ((a :: b :: u).getD ((a :: b :: u).length - 1) default)) 0 := by
          refine ⟨by simp [List.length_set], ?_, ?_⟩
          · intro j hj h0j hjne hpjne
            rw [List.length_set] at hj
            rw [getD_set_ne _ _ _ _ (by omega : (0 : Nat) ≠ j),
              getD_set_ne _ _ _ _ (fun he => hpjne he.symm)]
            rw [getD_dropLast _ _ (by simp at hj ⊢; omega),
              getD_dropLast _ _ (by simp at hj ⊢; omega)]
            exact hd j (by simp at hj ⊢; omega) h0j
          · intro j hj h0j hpj hfalse
            exact absurd hfalse (by omega)
        have hspec := sdtbGo_spec _ 0 hhd
        have hslen := sdtbGo_length ((a :: b :: u).dropLast.set 0
          ((a :: b :: u).getD ((a :: b :: u).length - 1) default)) 0
        have hins : AlmostIns (sdtbGo ((a :: b :: u).dropLast.set 0
            ((a :: b :: u).getD ((a :: b :: u).length - 1) default)) 0).1
            ((a :: b :: u).getD ((a :: b :: u).length - 1) default)
            (sdtbGo ((a :: b :: u).dropLast.set 0
              ((a :: b :: u).getD ((a :: b :: u).length - 1) default)) 0).2 := by
          refine ⟨?_, ?_, ?_⟩
          · rw [hslen]
            exact hspec.1
          · intro j hj h0j hjne hpjne
            rw [hslen] at hj
            exact hspec.2.2 j hj h0j hjne
          · intro j hj h0j hpj
            exfalso
            rw [hslen] at hj
            have hbound := hspec.2.1
            omega
        refine ⟨_, rfl, rfl, suFinish_isHeap _ _ _ hins, ?_⟩
        -- the permutation: the final array holds everything but the old root
        have hperm1 := suFinish_perm (sdtbGo ((a :: b :: u).dropLast.set 0
            ((a :: b :: u).getD ((a :: b :: u).length - 1) default)) 0).1
          ((a :: b :: u).getD ((a :: b :: u).length - 1) default)
          (sdtbGo ((a :: b :: u).dropLast.set 0
            ((a :: b :: u).getD ((a :: b :: u).length - 1) default)) 0).2
          (by rw [hslen]; exact hspec.1)
        have hperm2 := sdtbGo_perm ((a :: b :: u).dropLast.set 0
          ((a :: b :: u).getD ((a :: b :: u).length - 1) default)) 0
          ((a :: b :: u).getD ((a :: b :: u).length - 1) default)
        have hset2 : (((a :: b :: u).dropLast.set 0
            ((a :: b :: u).getD ((a :: b :: u).length - 1) default)).set 0
            ((a :: b :: u).getD ((a :: b :: u).length - 1) default)) =
            ((a :: b :: u).dropLast.set 0
              ((a :: b :: u).getD ((a :: b :: u).length - 1) default)) :=
          List.set_set _ _ _ _
        rw [hset2] at hperm2
        have hfinal := hperm1.trans hperm2
        have hd1 : ((a :: b :: u).dropLast.set 0
            ((a :: b :: u).getD ((a :: b :: u).length - 1) default)) =
            ((a :: b :: u).getD ((a :: b :: u).length - 1) default) ::
              (b :: u).dropLast := by
          rw [hrest]
          rfl
        have htail : (b :: u).Perm (((a :: b :: u).getD ((a :: b :: u).length - 1) default) ::
            (b :: u).dropLast) := by
          rw [hitem]
          have hsplit := List.dropLast_append_getLast (show (b :: u) ≠ [] by simp)
          conv_lhs => rw [← hsplit]
          exact List.perm_append_singleton _ _
        have h2 : (((a :: b :: u).getD ((a :: b :: u).length - 1) default) ::
            (b :: u).dropLast).Perm (suFinish (sdtbGo ((a :: b :: u).dropLast.set 0
              ((a :: b :: u).getD ((a :: b :: u).length - 1) default)) 0).1
            ((a :: b :: u).getD ((a :: b :: u).length - 1) default)
            (sdtbGo ((a :: b :: u).dropLast.set 0
              ((a :: b :: u).getD ((a :: b :: u).length - 1) default)) 0).2) := by
          rw [← hd1]
          exact hfinal.symm
        rw [show (a :: b :: u).getD 0 default = a from rfl]
        exact List.Perm.cons a (htail.trans h2)

/-! ## C6: Huffman tree construction and the tie-break rule -/

theorem set_getD_self (l : List HNode) (i : Nat) (h : i < l.length) :
    l.set i (l.getD i default) = l := by
  rw [getD_eq_getElem _ _ h]
  apply List.ext_getElem (by simp)
  intro j h1 h2
  rw [List.getElem_set]
  split
  · next he => subst he; rfl
  · rfl

theorem siftUpGo_perm (d : List HNode) (pos : Nat) (hpos : pos < d.length) :
    (siftUpGo d pos).Perm d := by
  induction d, pos using siftUpGo.induct with
  | case1 d pos hc ih =>
    rw [siftUpGo, dif_pos hc]
    have hp2 : (pos - 1) / 2 < d.length := by omega
    have h1 := ih (by simp only [List.length_set]; omega)
    refine h1.trans ?_
    have h2 := set_set_perm d pos ((pos - 1) / 2) (d.getD pos default)
      (by omega) hp2 hpos
    rw [set_getD_self d pos hpos] at h2
    exact h2
  | case2 d pos hc =>
    rw [siftUpGo, dif_neg hc]

theorem heapPush_perm (d : List HNode) (x : HNode) :
    (heapPush d x).Perm (d ++ [x]) := by
  rw [heapPush]
  exact siftUpGo_perm (d ++ [x]) d.length (by simp)

theorem lookup_map_graph (g : Nat → Nat) (b : Nat) (l : List Nat) :
    (l.map (fun a => (a, g a))).lookup b = if b ∈ l then some (g b) else none := by
  induction l with
  | nil => rfl
  | cons a t ih =>
    by_cases h : b = a
    · subst h
      simp [List.lookup]
    · have hba : (b == a) = false := by simpa using h
      simp [List.lookup, hba, ih, h]

theorem filterMap_guard (p : Nat → Bool) (g : Nat → Nat × Nat) (l : List Nat) :
    (l.filterMap (fun b => if p b then some (g b) else none)) = (l.filter p).map g := by
  induction l with
  | nil => rfl
  | cons a t ih =>
    by_cases h : p a <;> simp [List.filterMap_cons, List.filter_cons, h, ih]

theorem filterMap_ext_mem (f g : Nat → Option (Nat × Nat)) (l : List Nat)
    (h : ∀ b ∈ l, f b = g b) : l.filterMap f = l.filterMap g := by
  induction l with
  | nil => rfl
  | cons a t ih =>
    rw [List.filterMap_cons, List.filterMap_cons, h a (by simp),
      ih (fun b hb => h b (by simp [hb]))]

theorem huffFreqFromRecs_of_perm (input ord : List Nat)
    (h : ord.Perm (huffDistinct input)) :
    huffFreqFromRecs (ord.map (fun b => (b, input.count b))) = huffFreqPairs input := by
  rw [huffFreqFromRecs]
  have hstep : ∀ b ∈ List.range 256,
      (((ord.map (fun a => (a, input.count a))).reverse.lookup b).map (fun f => (b, f))) =
      if decide (b ∈ input) then some (b, input.count b) else none := by
    intro b hb
    rw [← List.map_reverse, lookup_map_graph]
    have hmem : (b ∈ ord.reverse) ↔ b ∈ input := by
      rw [List.mem_reverse, h.mem_iff]
      simp only [huffDistinct, List.mem_filter, List.mem_range]
      simp only [List.mem_range] at hb
      constructor
      · intro hx
        simpa using hx.2
      · intro hx
        exact ⟨hb, by simpa using hx⟩
    by_cases hbi : b ∈ input
    · rw [if_pos (hmem.mpr hbi), if_pos (by simpa using hbi)]
      rfl
    · rw [if_neg (fun hc => hbi (hmem.mp hc)), if_neg (by simpa using hbi)]
      rfl
  rw [filterMap_ext_mem _ _ _ hstep, filterMap_guard]
  rfl

theorem specBuildAsc_01 :
    specBuildAsc [(0, 1), (1, 1)] = some (.node 2 (.leaf 1 0) (.leaf 1 1)) := by
  rw [specBuildAsc]
  simp only [List.foldl_cons, List.foldl_nil]
  rw [show specAscInsert (HNode.leaf 1 0) [] = [HNode.leaf 1 0] from rfl]
  rw [show specAscInsert (HNode.leaf 1 1) [HNode.leaf 1 0] =
    [HNode.leaf 1 0, HNode.leaf 1 1] by
      simp +decide [specAscInsert, HNode.freq, HNode.byteOr0]]
  rw [specAscMerge]
  dsimp only [HNode.freq]
  rw [show specAscInsert (HNode.node 2 (.leaf 1 0) (.leaf 1 1)) [] =
    [HNode.node 2 (.leaf 1 0) (.leaf 1 1)] from rfl]
  rw [specAscMerge]

/-- C6 counterexample: on the two-byte frequency table {0 ↦ 1, 1 ↦ 1} the
    code merges the two equal-frequency leaves with byte 1 popped FIRST
    (becoming the left child), because the `Ord` implementation reverses the
    frequency comparison but leaves the byte comparison unreversed, so the
    max-heap resolves frequency ties toward the LARGER byte value.  The
    construction the specification describes — ties broken by ASCENDING
    byte value — yields the mirrored tree, and the two trees assign
    different codes. -/
theorem c6_tie_break_not_ascending_cex :
    buildHuffmanTree [(0, 1), (1, 1)] = some (.node 2 (.leaf 1 1) (.leaf 1 0)) ∧
    specBuildAsc [(0, 1), (1, 1)] = some (.node 2 (.leaf 1 0) (.leaf 1 1)) ∧
    buildCodes (buildHuffmanTree [(0, 1), (1, 1)]) ≠
      buildCodes (specBuildAsc [(0, 1), (1, 1)]) := by
  refine ⟨buildTree_01, specBuildAsc_01, ?_⟩
  rw [buildTree_01, specBuildAsc_01]
  decide

/-- C6 amended: `build_huffman_tree` does repeatedly merge the two
    lowest-frequency nodes of a priority queue, with internal nodes using
    byte value 0 for ties — but ties between equal-frequency nodes are
    broken by DESCENDING byte value (the larger byte is taken first), not
    ascending.  Formally: (1) popping a non-empty heap satisfying the heap
    invariant returns a node whose frequency is minimal, and which has the
    LARGEST `byte.unwrap_or(0)` among minimal-frequency nodes, leaving a
    valid heap holding exactly the remaining nodes; (2) pushing preserves
    the heap invariant and adds exactly the pushed node; (3) the
    decompressor rebuilds, from the frequency records the compressor wrote
    in any `HashMap` iteration order, the identical sorted frequency table,
    hence derives byte-identical codes from the same construction. -/
theorem c6_amended_merge_ties_descending_byte :
    (∀ d : List HNode, IsHeap d → d ≠ [] →
      ∃ p, heapPop d = some p ∧ IsHeap p.2 ∧ d.Perm (p.1 :: p.2) ∧
        ∀ y ∈ d, p.1.freq ≤ y.freq ∧ (y.freq = p.1.freq → y.byteOr0 ≤ p.1.byteOr0)) ∧
    (∀ (d : List HNode) (x : HNode), IsHeap d →
      IsHeap (heapPush d x) ∧ (heapPush d x).Perm (d ++ [x])) ∧
    (∀ (input ord : List Nat), ord.Perm (huffDistinct input) →
      buildCodes (buildHuffmanTree
          (huffFreqFromRecs (ord.map (fun b => (b, input.count b))))) =
        buildCodes (buildHuffmanTree (huffFreqPairs input))) := by
  refine ⟨?_, ?_, ?_⟩
  · intro d hd hne
    obtain ⟨p, hp, hroot, hheap, hperm⟩ := heapPop_spec d hd hne
    refine ⟨p, hp, hheap, hperm, ?_⟩
    intro y hy
    obtain ⟨j, hj, hyj⟩ := List.mem_iff_getElem.mp hy
    have h0 : 0 < d.length := List.length_pos.mpr hne
    have hle := isHeap_le_root d hd j hj
    rw [Ne, hCmp_gt_iff, getD_eq_getElem _ _ hj, getD_eq_getElem _ _ h0] at hle
    rw [← hyj, hroot, getD_eq_getElem _ _ h0]
    constructor
    · omega
    · intro hfe
      omega
  · intro d x hd
    exact ⟨heapPush_isHeap d x hd, heapPush_perm d x⟩
  · intro input ord h
    rw [huffFreqFromRecs_of_perm input ord h]

/-- C6 amended witness. -/
theorem c6_amended_witness :
    (∃ p, heapPop [HNode.leaf 1 1, HNode.leaf 1 0] = some p ∧ IsHeap p.2 ∧
      ([HNode.leaf 1 1, HNode.leaf 1 0] : List HNode).Perm (p.1 :: p.2) ∧
      ∀ y ∈ ([HNode.leaf 1 1, HNode.leaf 1 0] : List HNode),
        p.1.freq ≤ y.freq ∧ (y.freq = p.1.freq → y.byteOr0 ≤ p.1.byteOr0)) ∧
    (IsHeap (heapPush [HNode.leaf 1 0] (HNode.leaf 2 5)) ∧
      (heapPush [HNode.leaf 1 0] (HNode.leaf 2 5)).Perm
        ([HNode.leaf 1 0] ++ [HNode.leaf 2 5])) ∧
    buildCodes (buildHuffmanTree
        (huffFreqFromRecs ([1, 0].map (fun b => (b, ([0, 1] : List Nat).count b))))) =
      buildCodes (buildHuffmanTree (huffFreqPairs [0, 1])) :=
  ⟨c6_amended_merge_ties_descending_byte.1 [HNode.leaf 1 1, HNode.leaf 1 0]
      (by unfold IsHeap; decide) (by decide),
    c6_amended_merge_ties_descending_byte.2.1 [HNode.leaf 1 0] (HNode.leaf 2 5)
      (by unfold IsHeap; decide),
    c6_amended_merge_ties_descending_byte.2.2 [0, 1] [1, 0] (by decide)⟩

/-- C10 amended witness: a truncated buffer, an overlong declared record
    size, and a record whose declared path length overruns it. -/
theorem c10_amended_witness :
    bytesToArchiveData [1, 0] = .invalidData ∧
    bytesToArchiveLoop [0, 0, 0, 0, 9, 0, 0, 0] 4 1 = .invalidData ∧
    bytesToDirEntry [0, 0, 0, 0, 100, 0, 0, 0] = .panicked := by
  refine ⟨?_, ?_, ?_⟩
  · exact c10_amended_framing_checked_record_fields_panic.1 [1, 0] (by decide)
  · exact c10_amended_framing_checked_record_fields_panic.2.2.1 [0, 0, 0, 0, 9, 0, 0, 0] 4 0 9
      (by decide) (by decide) (by decide)
  · exact c10_amended_framing_checked_record_fields_panic.2.2.2.1 [0, 0, 0, 0, 100, 0, 0, 0]
      100 (by decide) (by decide) (by decide)



/-! ## C8: bit-stream lemmas for the LZW writer and reader -/

theorem bitsN_length (v n : Nat) : (bitsN v n).length = n := by
  simp [bitsN]

theorem bitsN_lt_two (v n : Nat) : ∀ x ∈ bitsN v n, x < 2 := by
  intro x hx
  rw [bitsN] at hx
  obtain ⟨i, _, hix⟩ := List.mem_map.mp hx
  omega

theorem bitsN_snoc (v b n : Nat) (hb : b < 2) :
    bitsN (2 * v + b) (n + 1) = bitsN v n ++ [b] := by
  rw [bitsN, bitsN, List.range_succ, List.map_append]
  congr 1
  · apply List.map_congr_left
    intro i hi
    rw [List.mem_range] at hi
    have hk : n + 1 - 1 - i = (n - 1 - i) + 1 := by omega
    have h2 : (2 * v + b) / 2 = v := by omega
    rw [hk, pow_succ, Nat.mul_comm (2 ^ (n - 1 - i)) 2, ← Nat.div_div_eq_div_mul, h2]
  · simp
    omega

theorem bit_mod_pow (x k m : Nat) (h : k < m) :
    x % 2 ^ m / 2 ^ k % 2 = x / 2 ^ k % 2 := by
  have h1 : (x % 2 ^ m).testBit k = x.testBit k := by
    rw [Nat.testBit_mod_two_pow]
    simp [h]
  rw [Nat.testBit_to_div_mod, Nat.testBit_to_div_mod] at h1
  simp only [decide_eq_decide] at h1
  have ha : x % 2 ^ m / 2 ^ k % 2 < 2 := Nat.mod_lt _ (by omega)
  have hb : x / 2 ^ k % 2 < 2 := Nat.mod_lt _ (by omega)
  omega

theorem bitsN_cons (v n : Nat) :
    bitsN v (n + 1) = (v / 2 ^ n % 2) :: bitsN (v % 2 ^ n) n := by
  rw [bitsN, bitsN, List.range_succ_eq_map, List.map_cons]
  congr 1
  rw [List.map_map]
  apply List.map_congr_left
  intro i hi
  rw [List.mem_range] at hi
  show v / 2 ^ (n + 1 - 1 - (i + 1)) % 2 = v % 2 ^ n / 2 ^ (n - 1 - i) % 2
  rw [show n + 1 - 1 - (i + 1) = n - 1 - i by omega]
  exact (bit_mod_pow v (n - 1 - i) n (by omega)).symm

theorem bitsN_mul_pow (v n j : Nat) :
    bitsN (v * 2 ^ j) (n + j) = bitsN v n ++ List.replicate j 0 := by
  induction j with
  | zero => simp
  | succ j ih =>
    rw [show v * 2 ^ (j + 1) = 2 * (v * 2 ^ j) + 0 by ring,
      show n + (j + 1) = (n + j) + 1 by omega,
      bitsN_snoc _ _ _ (by omega), ih, List.append_assoc]
    congr 1
    rw [← List.replicate_succ']

theorem valP_append_singleton (bs : List Nat) (b : Nat) :
    valP (bs ++ [b]) = valP bs * 2 + b := by
  rw [valP, valP, List.foldl_append]
  rfl

theorem valP_lt (bs : List Nat) (h : ∀ x ∈ bs, x < 2) : valP bs < 2 ^ bs.length := by
  induction bs using List.reverseRecOn with
  | nil => simp [valP]
  | append_singleton bs b ih =>
    rw [valP_append_singleton]
    have h1 := ih (fun x hx => h x (by simp [hx]))
    have h2 : b < 2 := h b (by simp)
    rw [List.length_append, List.length_singleton, pow_succ]
    omega

theorem valP_bitsN (v n : Nat) (h : v < 2 ^ n) : valP (bitsN v n) = v := by
  induction n generalizing v with
  | zero =>
    rw [show v = 0 by simpa using h]
    simp [bitsN, valP]
  | succ n ih =>
    rw [show v = 2 * (v / 2) + v % 2 by omega, bitsN_snoc _ _ _ (by omega),
      valP_append_singleton, ih (v / 2) (by
        rw [pow_succ] at h
        omega)]
    omega

theorem valN_eq_valP (bs : List Nat) (h : ∀ x ∈ bs, x < 2) (hl : bs.length ≤ 16) :
    valN bs = valP bs := by
  induction bs using List.reverseRecOn with
  | nil => rfl
  | append_singleton bs b ih =>
    have h1 : ∀ x ∈ bs, x < 2 := fun x hx => h x (by simp [hx])
    have h2 := valP_lt bs h1
    have h3 : bs.length ≤ 15 := by
      rw [List.length_append] at hl
      simpa using hl
    have h4 : (2 : Nat) ^ bs.length ≤ 2 ^ 15 := Nat.pow_le_pow_right (by omega) h3
    rw [valN, List.foldl_append, ← valN, ih h1 (by omega), valP_append_singleton]
    simp only [List.foldl_cons, List.foldl_nil]
    have : valP bs * 2 % 65536 = valP bs * 2 := by
      apply Nat.mod_eq_of_lt
      calc valP bs * 2 < 2 ^ bs.length * 2 := by omega
        _ ≤ 2 ^ 15 * 2 := by omega
        _ = 65536 := by norm_num
    rw [this]

theorem valN_bitsN (v : Nat) (h : v < 4096) : valN (bitsN v 12) = v := by
  rw [valN_eq_valP _ (bitsN_lt_two v 12) (by rw [bitsN_length]; omega),
    valP_bitsN v 12 (by norm_num; omega)]

theorem flatBits_append (l1 l2 : List Nat) :
    flatBits (l1 ++ l2) = flatBits l1 ++ flatBits l2 := by
  rw [flatBits, flatBits, flatBits, List.map_append, List.flatten_append]

theorem flatBits_length (l : List Nat) : (flatBits l).length = 8 * l.length := by
  induction l with
  | nil => rfl
  | cons b t ih =>
    rw [show b :: t = [b] ++ t from rfl, flatBits_append, List.length_append, ih]
    simp [flatBits, bitsN]
    omega

theorem rBits_length (st : BR) :
    (rBits st).length = (8 - st.pos) + 8 * st.bytes.length := by
  rw [rBits, List.length_append, bitsN_length, flatBits_length]

theorem bwPushBit_spec (st : BW) (bit : Nat) (hinv : BWinv st) (hb : bit < 2) :
    wBits (bwPushBit st bit) = wBits st ++ [bit] ∧ BWinv (bwPushBit st bit) := by
  obtain ⟨hc, hp⟩ := hinv
  have hcur : st.cur * 2 % 256 + bit = 2 * st.cur + bit := by
    have : st.cur * 2 < 256 := by
      have h2 : (2 : Nat) ^ st.pos ≤ 2 ^ 7 := Nat.pow_le_pow_right (by omega) (by omega)
      have : (2 : Nat) ^ 7 = 128 := by norm_num
      omega
    rw [Nat.mod_eq_of_lt this]
    omega
  rw [bwPushBit]
  by_cases h8 : st.pos + 1 = 8
  · rw [if_pos h8]
    constructor
    · show flatBits (st.out ++ [st.cur * 2 % 256 + bit]) ++ bitsN 0 0 =
        (flatBits st.out ++ bitsN st.cur st.pos) ++ [bit]
      rw [flatBits_append, hcur]
      have hps : st.pos = 7 := by omega
      rw [show flatBits [2 * st.cur + bit] = bitsN (2 * st.cur + bit) 8 by
        simp [flatBits]]
      rw [show (8 : Nat) = 7 + 1 from rfl, bitsN_snoc _ _ _ hb, hps]
      simp [bitsN]
    · exact ⟨by norm_num, by norm_num⟩
  · rw [if_neg h8]
    constructor
    · show flatBits st.out ++ bitsN (st.cur * 2 % 256 + bit) (st.pos + 1) =
        (flatBits st.out ++ bitsN st.cur st.pos) ++ [bit]
      rw [hcur, bitsN_snoc _ _ _ hb, List.append_assoc]
    · refine ⟨?_, by show st.pos + 1 < 8; omega⟩
      show st.cur * 2 % 256 + bit < 2 ^ (st.pos + 1)
      rw [hcur, pow_succ]
      omega

theorem bwWriteBitsGo_spec (t : Nat) (ht : t ≤ 12) :
    ∀ (st : BW) (bits : Nat), BWinv st → bits < 65536 →
    wBits (bwWriteBitsGo st bits 12 t) =
      wBits st ++ (List.range t).map (fun i => bits * 2 ^ i % 65536 / 2 ^ 11 % 2) ∧
    BWinv (bwWriteBitsGo st bits 12 t) := by
  induction t with
  | zero => intro st bits hinv _; exact ⟨by simp [bwWriteBitsGo], hinv⟩
  | succ t ih =>
    intro st bits hinv hb
    rw [bwWriteBitsGo]
    have hbit : bits / 2 ^ (12 - 1) % 2 < 2 := Nat.mod_lt _ (by omega)
    obtain ⟨hw1, hi1⟩ := bwPushBit_spec st (bits / 2 ^ (12 - 1) % 2) hinv hbit
    obtain ⟨hw2, hi2⟩ := ih (by omega) (bwPushBit st (bits / 2 ^ (12 - 1) % 2))
      (bits * 2 % 65536) hi1 (Nat.mod_lt _ (by omega))
    refine ⟨?_, hi2⟩
    rw [hw2, hw1, List.append_assoc, List.range_succ_eq_map, List.map_cons,
      List.map_map, List.singleton_append]
    congr 1
    rw [List.cons_eq_cons]
    refine ⟨?_, ?_⟩
    · show bits / 2 ^ (12 - 1) % 2 = bits * 2 ^ 0 % 65536 / 2 ^ 11 % 2
      rw [pow_zero, Nat.mul_one, Nat.mod_eq_of_lt hb]
    · apply List.map_congr_left
      intro i hi
      show bits * 2 % 65536 * 2 ^ i % 65536 / 2 ^ 11 % 2 =
        bits * 2 ^ (i + 1) % 65536 / 2 ^ 11 % 2
      rw [Nat.mod_mul_mod, pow_succ]
      ring_nf

theorem lzw_code_bit (code i : Nat) (hcode : code < 4096) (hi12 : i < 12) :
    code * 2 ^ i % 65536 / 2 ^ 11 % 2 = code / 2 ^ (12 - 1 - i) % 2 := by
  have h1 : code * 2 ^ i % 65536 / 2 ^ 11 % 2 = code * 2 ^ i / 2 ^ 11 % 2 := by
    have hb := bit_mod_pow (code * 2 ^ i) 11 16 (by omega)
    rw [show (65536 : Nat) = 2 ^ 16 by norm_num]
    exact hb
  rw [h1]
  have h2 : (2 : Nat) ^ 11 = 2 ^ i * 2 ^ (11 - i) := by
    rw [← pow_add]
    congr 1
    omega
  rw [h2, ← Nat.div_div_eq_div_mul,
    Nat.mul_div_cancel code (by positivity : (0 : Nat) < 2 ^ i),
    show 12 - 1 - i = 11 - i by omega]

theorem bwWriteBits_spec (st : BW) (code : Nat) (hinv : BWinv st) (hcode : code < 4096) :
    wBits (bwWriteBits st code 12) = wBits st ++ bitsN code 12 ∧
    BWinv (bwWriteBits st code 12) := by
  have h12 : (12 : Nat) ≤ 12 := by omega
  have hc16 : code < 65536 := by omega
  obtain ⟨hw, hi⟩ := bwWriteBitsGo_spec 12 h12 st code hinv hc16
  refine ⟨?_, ?_⟩
  · rw [bwWriteBits]
    rw [hw]
    have hg : (List.range 12).map (fun i => code * 2 ^ i % 65536 / 2 ^ 11 % 2) =
        bitsN code 12 := by
      rw [bitsN]
      apply List.map_congr_left
      intro i hi12
      rw [List.mem_range] at hi12
      exact lzw_code_bit code i hcode hi12
    rw [hg]
  · rw [bwWriteBits]
    exact hi

theorem wr_spec (ks : List Nat) :
    ∀ bw : BW, BWinv bw → (∀ k ∈ ks, k < 4096) →
    wBits (wr bw ks) = wBits bw ++ codeGroups ks ∧ BWinv (wr bw ks) := by
  induction ks with
  | nil => intro bw hinv _; exact ⟨by simp [wr, codeGroups], hinv⟩
  | cons k ks ih =>
    intro bw hinv hks
    obtain ⟨hw1, hi1⟩ := bwWriteBits_spec bw k hinv (hks k (by simp))
    obtain ⟨hw2, hi2⟩ := ih (bwWriteBits bw k 12) hi1 (fun x hx => hks x (by simp [hx]))
    refine ⟨?_, by rw [wr] at hi2 ⊢; simpa using hi2⟩
    rw [wr] at hw2 ⊢
    simp only [List.foldl_cons] at hw2 ⊢
    rw [hw2, hw1, List.append_assoc]
    simp only [codeGroups, List.map_cons, List.flatten_cons]

theorem bwFlush_spec (st : BW) (hinv : BWinv st) :
    ∃ pad : List Nat, flatBits (bwFlush st).out = wBits st ++ pad ∧ pad.length < 8 := by
  obtain ⟨hc, hp⟩ := hinv
  rw [bwFlush]
  by_cases h0 : 0 < st.pos
  · rw [if_pos h0]
    refine ⟨List.replicate (8 - st.pos) 0, ?_, by simp; omega⟩
    show flatBits (st.out ++ [st.cur * 2 ^ (8 - st.pos) % 256]) =
      (flatBits st.out ++ bitsN st.cur st.pos) ++ List.replicate (8 - st.pos) 0
    rw [flatBits_append, List.append_assoc]
    congr 1
    have hpow : (2 : Nat) ^ st.pos * 2 ^ (8 - st.pos) = 256 := by
      rw [← pow_add, show st.pos + (8 - st.pos) = 8 by omega]
      norm_num
    have hlt : st.cur * 2 ^ (8 - st.pos) < 256 := by
      have h1 : st.cur * 2 ^ (8 - st.pos) < 2 ^ st.pos * 2 ^ (8 - st.pos) :=
        mul_lt_mul_of_pos_right hc (by positivity)
      omega
    have hbits : bitsN (st.cur * 2 ^ (8 - st.pos)) 8 =
        bitsN st.cur st.pos ++ List.replicate (8 - st.pos) 0 := by
      have hmp := bitsN_mul_pow st.cur st.pos (8 - st.pos)
      rw [show st.pos + (8 - st.pos) = 8 by omega] at hmp
      exact hmp
    rw [show flatBits [st.cur * 2 ^ (8 - st.pos) % 256] =
        bitsN (st.cur * 2 ^ (8 - st.pos) % 256) 8 by simp [flatBits],
      Nat.mod_eq_of_lt hlt, hbits]
  · rw [if_neg h0]
    refine ⟨[], ?_, by simp⟩
    have hp0 : st.pos = 0 := by omega
    have hc0 : st.cur = 0 := by
      rw [hp0] at hc
      omega
    rw [wBits, hp0, hc0]
    simp [bitsN]

theorem brReadBitsGo_spec (t : Nat) :
    ∀ (st : BR) (acc : Nat) (bs rest : List Nat), st.pos ≤ 8 →
      rBits st = bs ++ rest → bs.length = t →
      ∃ st2 : BR, brReadBitsGo st acc t =
          some (bs.foldl (fun a b => a * 2 % 65536 + b) acc, st2) ∧
        rBits st2 = rest ∧ st2.pos ≤ 8 := by
  induction t with
  | zero =>
    intro st acc bs rest hpos hr hl
    have hbs : bs = [] := List.length_eq_zero.mp hl
    subst hbs
    exact ⟨st, rfl, by simpa using hr, hpos⟩
  | succ t ih =>
    intro st acc bs rest hpos hr hl
    match bs, hl with
    | b :: bs, hl =>
    rw [brReadBitsGo]
    by_cases hp8 : st.pos = 8
    · rw [if_pos hp8]
      have hr8 : rBits st = flatBits st.bytes := by
        rw [rBits, hp8]
        simp [bitsN]
      rw [hr8] at hr
      match hby : st.bytes with
      | [] => rw [hby] at hr; simp [flatBits] at hr
      | y :: ys =>
        rw [hby] at hr
        have hfl : flatBits (y :: ys) = bitsN y 8 ++ flatBits ys := by
          rw [show y :: ys = [y] ++ ys from rfl, flatBits_append]
          simp [flatBits]
        rw [hfl, show (8 : Nat) = 7 + 1 from rfl, bitsN_cons, List.cons_append] at hr
        have hb : y / 2 ^ 7 % 2 = b := (List.cons_eq_cons.mp hr).1
        have htl : bitsN (y % 2 ^ 7) 7 ++ flatBits ys = bs ++ rest :=
          (List.cons_eq_cons.mp hr).2
        have hst2 : rBits ⟨ys, y, 1⟩ = bs ++ rest := by
          rw [rBits]
          show bitsN (y % 2 ^ 7) 7 ++ flatBits ys = bs ++ rest
          exact htl
        obtain ⟨st2, he, hr2, hp2⟩ := ih ⟨ys, y, 1⟩ (acc * 2 % 65536 + y / 2 ^ 7 % 2)
          bs rest (by norm_num) hst2 (by simpa using hl)
        refine ⟨st2, ?_, hr2, hp2⟩
        dsimp only
        rw [hb] at he
        rw [hb, he]
        rfl
    · rw [if_neg hp8]
      have h87 : 8 - st.pos = (7 - st.pos) + 1 := by omega
      have hr7 : rBits st = (st.cur / 2 ^ (7 - st.pos) % 2) ::
          (bitsN (st.cur % 2 ^ (7 - st.pos)) (7 - st.pos) ++ flatBits st.bytes) := by
        rw [rBits, h87, bitsN_cons, bit_mod_pow _ _ _ (by omega),
          Nat.mod_mod_of_dvd _ (pow_dvd_pow 2 (by omega)), List.cons_append]
      rw [hr7] at hr
      have hb : st.cur / 2 ^ (7 - st.pos) % 2 = b := (List.cons_eq_cons.mp hr).1
      have htl : bitsN (st.cur % 2 ^ (7 - st.pos)) (7 - st.pos) ++ flatBits st.bytes =
          bs ++ rest := (List.cons_eq_cons.mp hr).2
      have hst2 : rBits ⟨st.bytes, st.cur, st.pos + 1⟩ = bs ++ rest := by
        rw [rBits]
        show bitsN (st.cur % 2 ^ (8 - (st.pos + 1))) (8 - (st.pos + 1)) ++
          flatBits st.bytes = bs ++ rest
        rw [show 8 - (st.pos + 1) = 7 - st.pos by omega]
        exact htl
      obtain ⟨st2, he, hr2, hp2⟩ := ih ⟨st.bytes, st.cur, st.pos + 1⟩
        (acc * 2 % 65536 + st.cur / 2 ^ (7 - st.pos) % 2) bs rest
        (by show st.pos + 1 ≤ 8; omega) hst2 (by simpa using hl)
      refine ⟨st2, ?_, hr2, hp2⟩
      rw [hb] at he
      rw [hb, he]
      rfl

theorem brReadBitsGo_none (t : Nat) :
    ∀ (st : BR) (acc : Nat), st.pos ≤ 8 → (rBits st).length < t →
      brReadBitsGo st acc t = none := by
  induction t with
  | zero => intro st acc _ habs; omega
  | succ t ih =>
    intro st acc hpos hlen
    rw [rBits_length] at hlen
    rw [brReadBitsGo]
    by_cases hp8 : st.pos = 8
    · rw [if_pos hp8]
      match hby : st.bytes with
      | [] => rfl
      | y :: ys =>
        rw [hby] at hlen
        apply ih
        · norm_num
        · rw [rBits_length]
          show 8 - 1 + 8 * ys.length < t
          rw [List.length_cons] at hlen
          omega
    · rw [if_neg hp8]
      apply ih
      · show st.pos + 1 ≤ 8
        omega
      · rw [rBits_length]
        show 8 - (st.pos + 1) + 8 * st.bytes.length < t
        omega

theorem lzwReadCodesFuel_spec (fuel : Nat) :
    ∀ (ks pad : List Nat) (st : BR), st.pos ≤ 8 →
      rBits st = codeGroups ks ++ pad → pad.length < 12 →
      (∀ k ∈ ks, k < 4096) → st.bytes.length < fuel →
      lzwReadCodesFuel fuel st = ks := by
  induction fuel with
  | zero => intro ks pad st _ _ _ _ habs; omega
  | succ fuel ih =>
    intro ks pad st hpos hr hpad hks hfuel
    match ks with
    | [] =>
      have hshort : (rBits st).length < 12 := by
        rw [hr]
        show (codeGroups [] ++ pad).length < 12
        simp [codeGroups]
        omega
      have hnone : brReadBits st 12 = none := by
        rw [brReadBits]
        exact brReadBitsGo_none 12 st 0 hpos hshort
      rw [lzwReadCodesFuel, hnone]
    | k :: ks =>
      have hg : rBits st = bitsN k 12 ++ (codeGroups ks ++ pad) := by
        rw [hr]
        show (codeGroups (k :: ks)) ++ pad = bitsN k 12 ++ (codeGroups ks ++ pad)
        simp only [codeGroups, List.map_cons, List.flatten_cons, List.append_assoc]
      obtain ⟨st2, he, hr2, hp2⟩ := brReadBitsGo_spec 12 st 0 (bitsN k 12)
        (codeGroups ks ++ pad) hpos hg (bitsN_length k 12)
      have hsome : brReadBits st 12 = some (k, st2) := by
        rw [brReadBits, he]
        have hv : (bitsN k 12).foldl (fun a b => a * 2 % 65536 + b) 0 = k := by
          have := valN_bitsN k (hks k (by simp))
          rw [valN] at this
          exact this
        rw [hv]
      have hlen1 : (rBits st).length = 12 + (rBits st2).length := by
        rw [hg, hr2, List.length_append, bitsN_length]
      have hbytes2 : st2.bytes.length < fuel := by
        have ha := rBits_length st
        have hb := rBits_length st2
        omega
      rw [lzwReadCodesFuel, hsome]
      dsimp only
      rw [ih ks pad st2 hp2 hr2 hpad (fun x hx => hks x (by simp [hx])) hbytes2]

theorem lzwReadCodes_wr (ks : List Nat) (hk : ∀ k ∈ ks, k < 4096) :
    lzwReadCodes ((bwFlush (wr ⟨0, 0, []⟩ ks)).out) = ks := by
  have hinv0 : BWinv ⟨0, 0, []⟩ := ⟨by norm_num, by norm_num⟩
  obtain ⟨hw, hi⟩ := wr_spec ks ⟨0, 0, []⟩ hinv0 hk
  obtain ⟨pad, hfl, hpl⟩ := bwFlush_spec _ hi
  rw [hw] at hfl
  have h0 : wBits ⟨0, 0, []⟩ = [] := by
    rw [wBits]
    simp [flatBits, bitsN]
  rw [h0, List.nil_append] at hfl
  rw [lzwReadCodes]
  have hrb : rBits ⟨(bwFlush (wr ⟨0, 0, []⟩ ks)).out, 0, 8⟩ =
      codeGroups ks ++ pad := by
    rw [rBits]
    show bitsN (0 % 2 ^ (8 - 8)) (8 - 8) ++ flatBits (bwFlush (wr ⟨0, 0, []⟩ ks)).out =
      codeGroups ks ++ pad
    rw [hfl]
    simp [bitsN]
  have hfb : ((⟨(bwFlush (wr ⟨0, 0, []⟩ ks)).out, 0, 8⟩ : BR)).bytes.length <
      (bwFlush (wr ⟨0, 0, []⟩ ks)).out.length + 1 := by
    show (bwFlush (wr ⟨0, 0, []⟩ ks)).out.length <
      (bwFlush (wr ⟨0, 0, []⟩ ks)).out.length + 1
    omega
  exact lzwReadCodesFuel_spec _ ks pad _ (by norm_num) hrb (by omega) hk hfb

theorem wr_append_singleton (bw : BW) (ks : List Nat) (k : Nat) :
    wr bw (ks ++ [k]) = bwWriteBits (wr bw ks) k 12 := by
  rw [wr, wr, List.foldl_append]
  simp only [List.foldl_cons, List.foldl_nil]

theorem wr_cons (bw : BW) (k : Nat) (ks : List Nat) :
    wr bw (k :: ks) = wr (bwWriteBits bw k 12) ks := by
  rw [wr, wr]
  simp only [List.foldl_cons]

theorem lzwAStep_codes (input : List Nat) :
    ∀ (dc : List (List Nat × Nat)) (s : Nat) (w K : List Nat),
      input.foldl lzwAStep ⟨dc, s, w, K⟩ =
        ⟨(input.foldl lzwAStep ⟨dc, s, w, []⟩).dict,
         (input.foldl lzwAStep ⟨dc, s, w, []⟩).size,
         (input.foldl lzwAStep ⟨dc, s, w, []⟩).w,
         K ++ (input.foldl lzwAStep ⟨dc, s, w, []⟩).codes⟩ := by
  induction input with
  | nil => intro dc s w K; simp
  | cons c rest ih =>
    intro dc s w K
    rw [List.foldl_cons, List.foldl_cons]
    by_cases hc : ((dc.lookup (w ++ [c])).isSome : Prop)
    · rw [show lzwAStep ⟨dc, s, w, K⟩ c = ⟨dc, s, w ++ [c], K⟩ by
        rw [lzwAStep]; exact if_pos hc]
      rw [show lzwAStep ⟨dc, s, w, []⟩ c = ⟨dc, s, w ++ [c], []⟩ by
        rw [lzwAStep]; exact if_pos hc]
      exact ih dc s (w ++ [c]) K
    · cases hm : dc.lookup w with
      | some code =>
        rw [show lzwAStep ⟨dc, s, w, K⟩ c =
            ⟨if s < 4096 then (w ++ [c], s) :: dc else dc,
             if s < 4096 then s + 1 else s, [c], K ++ [code]⟩ by
          rw [lzwAStep]
          rw [if_neg hc]
          simp only [hm]]
        rw [show lzwAStep ⟨dc, s, w, []⟩ c =
            ⟨if s < 4096 then (w ++ [c], s) :: dc else dc,
             if s < 4096 then s + 1 else s, [c], [code]⟩ by
          rw [lzwAStep]
          rw [if_neg hc]
          simp only [hm]
          simp]
        rw [ih _ _ [c] (K ++ [code]), ih _ _ [c] [code]]
        simp
      | none =>
        rw [show lzwAStep ⟨dc, s, w, K⟩ c =
            ⟨if s < 4096 then (w ++ [c], s) :: dc else dc,
             if s < 4096 then s + 1 else s, [c], K⟩ by
          rw [lzwAStep]
          rw [if_neg hc]
          simp only [hm]]
        rw [show lzwAStep ⟨dc, s, w, []⟩ c =
            ⟨if s < 4096 then (w ++ [c], s) :: dc else dc,
             if s < 4096 then s + 1 else s, [c], []⟩ by
          rw [lzwAStep]
          rw [if_neg hc]
          simp only [hm]]
        exact ih _ _ [c] K

theorem lzwCompressStep_couple (input : List Nat) :
    ∀ (dc : List (List Nat × Nat)) (s : Nat) (w : List Nat) (bw : BW),
      input.foldl lzwCompressStep ⟨dc, s, w, bw⟩ =
        ⟨(input.foldl lzwAStep ⟨dc, s, w, []⟩).dict,
         (input.foldl lzwAStep ⟨dc, s, w, []⟩).size,
         (input.foldl lzwAStep ⟨dc, s, w, []⟩).w,
         wr bw (input.foldl lzwAStep ⟨dc, s, w, []⟩).codes⟩ := by
  induction input with
  | nil => intro dc s w bw; simp [wr]
  | cons c rest ih =>
    intro dc s w bw
    rw [List.foldl_cons, List.foldl_cons]
    by_cases hc : ((dc.lookup (w ++ [c])).isSome : Prop)
    · rw [show lzwCompressStep ⟨dc, s, w, bw⟩ c = ⟨dc, s, w ++ [c], bw⟩ by
        rw [lzwCompressStep]; exact if_pos hc]
      rw [show lzwAStep ⟨dc, s, w, []⟩ c = ⟨dc, s, w ++ [c], []⟩ by
        rw [lzwAStep]; exact if_pos hc]
      exact ih dc s (w ++ [c]) bw
    · cases hm : dc.lookup w with
      | some code =>
        rw [show lzwCompressStep ⟨dc, s, w, bw⟩ c =
            ⟨if s < 4096 then (w ++ [c], s) :: dc else dc,
             if s < 4096 then s + 1 else s, [c], bwWriteBits bw code 12⟩ by
          rw [lzwCompressStep]
          rw [if_neg hc]
          simp only [hm]
          by_cases hs : s < 4096 <;> simp [hs]]
        rw [show lzwAStep ⟨dc, s, w, []⟩ c =
            ⟨if s < 4096 then (w ++ [c], s) :: dc else dc,
             if s < 4096 then s + 1 else s, [c], [code]⟩ by
          rw [lzwAStep]
          rw [if_neg hc]
          simp only [hm]
          simp]
        rw [ih _ _ [c] (bwWriteBits bw code 12),
          lzwAStep_codes rest _ _ [c] [code], List.singleton_append, wr_cons]
      | none =>
        rw [show lzwCompressStep ⟨dc, s, w, bw⟩ c =
            ⟨if s < 4096 then (w ++ [c], s) :: dc else dc,
             if s < 4096 then s + 1 else s, [c], bw⟩ by
          rw [lzwCompressStep]
          rw [if_neg hc]
          simp only [hm]
          by_cases hs : s < 4096 <;> simp [hs]]
        rw [show lzwAStep ⟨dc, s, w, []⟩ c =
            ⟨if s < 4096 then (w ++ [c], s) :: dc else dc,
             if s < 4096 then s + 1 else s, [c], []⟩ by
          rw [lzwAStep]
          rw [if_neg hc]
          simp only [hm]]
        exact ih _ _ [c] bw

theorem lzwCompress_wr (input : List Nat) :
    lzwCompress input = (bwFlush (wr ⟨0, 0, []⟩ (lzwCodes input))).out := by
  rw [lzwCompress, lzwCodes]
  have hc := lzwCompressStep_couple input lzwSeedDict 256 [] ⟨0, 0, []⟩
  rw [show (⟨lzwSeedDict, 256, [], ⟨0, 0, []⟩⟩ : LzwC) =
    ⟨lzwSeedDict, 256, [], ⟨0, 0, []⟩⟩ from rfl]
  rw [show lzwAInit = ⟨lzwSeedDict, 256, [], []⟩ from rfl]
  rw [hc]
  by_cases hw : (input.foldl lzwAStep ⟨lzwSeedDict, 256, [], []⟩).w = []
  · rw [if_pos hw, if_pos hw]
    simp
  · rw [if_neg hw, if_neg hw]
    cases hm : (input.foldl lzwAStep ⟨lzwSeedDict, 256, [], []⟩).dict.lookup
        (input.foldl lzwAStep ⟨lzwSeedDict, 256, [], []⟩).w with
    | some code =>
      rw [wr_append_singleton]
    | none =>
      simp

theorem lookup_mem {α β : Type} [BEq α] [LawfulBEq α] (l : List (α × β)) (k : α) (v : β) :
    l.lookup k = some v → (k, v) ∈ l := by
  induction l with
  | nil => intro h; simp [List.lookup] at h
  | cons p t ih =>
    intro h
    obtain ⟨a, b⟩ := p
    by_cases hk : k == a
    · have hka : k = a := eq_of_beq hk
      simp only [List.lookup, hk] at h
      rw [Option.some_inj] at h
      subst hka
      subst h
      exact List.mem_cons_self _ _
    · have hk2 : (k == a) = false := by simpa using hk
      simp only [List.lookup, hk2] at h
      exact List.mem_cons_of_mem _ (ih h)

theorem mem_lookup_isSome {α β : Type} [BEq α] [LawfulBEq α] (l : List (α × β))
    (k : α) (v : β) : (k, v) ∈ l → (l.lookup k).isSome := by
  induction l with
  | nil => intro h; simp at h
  | cons p t ih =>
    intro h
    obtain ⟨a, b⟩ := p
    by_cases hk : k == a
    · simp [List.lookup, hk]
    · have hk2 : (k == a) = false := by simpa using hk
      simp only [List.lookup, hk2]
      rcases List.mem_cons.mp h with he | hm
      · rw [Prod.mk.injEq] at he
        exact absurd (by simp [he.1] : (k == a) = true) (by simp [hk2])
      · exact ih hm

theorem lookup_eq_none_of_not_key {α β : Type} [BEq α] [LawfulBEq α]
    (l : List (α × β)) (k : α) : (∀ p ∈ l, p.1 ≠ k) → l.lookup k = none := by
  induction l with
  | nil => intro h; rfl
  | cons p t ih =>
    intro h
    obtain ⟨a, b⟩ := p
    have hne : a ≠ k := h (a, b) (by simp)
    have hk2 : (k == a) = false := by
      simp only [beq_eq_false_iff_ne, Ne]
      intro hc
      exact hne hc.symm
    simp only [List.lookup, hk2]
    exact ih (fun q hq => h q (by simp [hq]))

theorem not_key_of_lookup_eq_none {α β : Type} [BEq α] [LawfulBEq α]
    (l : List (α × β)) (k : α) : l.lookup k = none → ∀ p ∈ l, p.1 ≠ k := by
  induction l with
  | nil => intro _ p hp; simp at hp
  | cons p t ih =>
    intro h q hq
    obtain ⟨a, b⟩ := p
    by_cases hk : k == a
    · simp only [List.lookup, hk] at h
      exact absurd h (by simp)
    · have hk2 : (k == a) = false := by simpa using hk
      simp only [List.lookup, hk2] at h
      rcases List.mem_cons.mp hq with he | hm
      · subst he
        show a ≠ k
        intro hak
        exact absurd (by simp [hak] : (k == a) = true) (by simp [hk2])
      · exact ih h q hm

theorem lookup_of_mem_nodup {α β : Type} [BEq α] [LawfulBEq α] (l : List (α × β))
    (k : α) (v : β) : (l.map Prod.fst).Nodup → (k, v) ∈ l → l.lookup k = some v := by
  induction l with
  | nil => intro _ h; simp at h
  | cons p t ih =>
    intro hnd h
    obtain ⟨a, b⟩ := p
    rw [List.map_cons, List.nodup_cons] at hnd
    rcases List.mem_cons.mp h with he | hm
    · rw [Prod.mk.injEq] at he
      obtain ⟨h1, h2⟩ := he
      subst h1
      subst h2
      simp [List.lookup]
    · by_cases hk : k == a
      · exfalso
        have hka : k = a := eq_of_beq hk
        subst hka
        exact hnd.1 (List.mem_map.mpr ⟨(k, v), hm, rfl⟩)
      · have hk2 : (k == a) = false := by simpa using hk
        simp only [List.lookup, hk2]
        exact ih hnd.2 hm

theorem seedC_mem (b : Nat) (hb : b < 256) : ([b], b) ∈ lzwSeedDict := by
  rw [lzwSeedDict]
  exact List.mem_map.mpr ⟨b, List.mem_range.mpr hb, rfl⟩

theorem seedC_keys_nodup : (lzwSeedDict.map Prod.fst).Nodup := by
  rw [lzwSeedDict, List.map_map]
  refine List.Nodup.map ?_ (List.nodup_range 256)
  intro x y hxy
  simpa using hxy

theorem seedC_vals (p : List Nat × Nat) (hp : p ∈ lzwSeedDict) : p.2 < 256 := by
  rw [lzwSeedDict] at hp
  obtain ⟨i, hi, he⟩ := List.mem_map.mp hp
  rw [← he]
  simpa using hi

theorem seedC_lookup (b : Nat) (hb : b < 256) : lzwSeedDict.lookup [b] = some b :=
  lookup_of_mem_nodup _ _ _ seedC_keys_nodup (seedC_mem b hb)

theorem seedC_lookup_pair (w : List Nat) (hw : w.length ≠ 1) :
    lzwSeedDict.lookup w = none := by
  apply lookup_eq_none_of_not_key
  intro p hp
  rw [lzwSeedDict] at hp
  obtain ⟨i, hi, he⟩ := List.mem_map.mp hp
  rw [← he]
  intro hc
  apply hw
  rw [← hc]
  rfl

theorem seedD_mem (b : Nat) (hb : b < 256) : (b, [b]) ∈ lzwDecDict0 := by
  rw [lzwDecDict0]
  exact List.mem_map.mpr ⟨b, List.mem_range.mpr hb, rfl⟩

theorem seedD_keys_nodup : (lzwDecDict0.map Prod.fst).Nodup := by
  rw [lzwDecDict0, List.map_map]
  refine List.Nodup.map ?_ (List.nodup_range 256)
  intro x y hxy
  simpa using hxy

theorem seedD_facts (p : Nat × List Nat) (hp : p ∈ lzwDecDict0) :
    p.1 < 256 ∧ p.2 ≠ [] := by
  rw [lzwDecDict0] at hp
  obtain ⟨i, hi, he⟩ := List.mem_map.mp hp
  rw [← he]
  exact ⟨by simpa using hi, by simp⟩

theorem seedD_lookup (b : Nat) (hb : b < 256) : lzwDecDict0.lookup b = some [b] :=
  lookup_of_mem_nodup _ _ _ seedD_keys_nodup (seedD_mem b hb)

theorem swap_seed : lzwSeedDict.map Prod.swap = lzwDecDict0 := by
  rw [lzwSeedDict, lzwDecDict0, List.map_map]
  rfl

theorem lzw_decode_lag (dc : List (List Nat × Nat)) (c : Nat) (wrest : List Nat)
    (dd : List (Nat × List Nat)) (sD : Nat) (wD : List Nat) (k : Nat)
    (hwD : wD ≠ [])
    (hddk : ∀ p ∈ dd, p.1 < sD)
    (hddnd : (dd.map Prod.fst).Nodup)
    (hswap : dc.map Prod.swap = (sD, wD ++ [c]) :: dd)
    (hsD : sD < 4096)
    (hk : dc.lookup (c :: wrest) = some k)
    (rest res : List Nat) :
    lzwDecodeLoop (k :: rest) dd sD wD res =
      lzwDecodeLoop rest ((sD, wD ++ [c]) :: dd) (sD + 1) (c :: wrest)
        (res ++ (c :: wrest)) := by
  have hmem : ((c :: wrest), k) ∈ dc := lookup_mem _ _ _ hk
  have hmem2 : (k, c :: wrest) ∈ dc.map Prod.swap :=
    List.mem_map.mpr ⟨((c :: wrest), k), hmem, rfl⟩
  rw [hswap] at hmem2
  rcases List.mem_cons.mp hmem2 with he | hm
  · rw [Prod.mk.injEq] at he
    obtain ⟨hks, hwe⟩ := he
    subst hks
    have hnone : dd.lookup k = none := by
      apply lookup_eq_none_of_not_key
      intro p hp
      have := hddk p hp
      omega
    match hwD2 : wD, hwD with
    | w0 :: wtl, _ =>
    have hw0 : c = w0 := (List.cons_eq_cons.mp hwe).1
    have hwr : wrest = wtl ++ [c] := (List.cons_eq_cons.mp hwe).2
    subst hw0
    subst hwr
    simp only [lzwDecodeLoop, hnone]
    rw [if_pos trivial, if_pos hsD]
    simp only [List.cons_append]
  · have hsome : dd.lookup k = some (c :: wrest) := lookup_of_mem_nodup _ _ _ hddnd hm
    simp only [lzwDecodeLoop, hsome]
    rw [if_pos hsD]

theorem lzw_decode_full (dc : List (List Nat × Nat)) (w : List Nat)
    (dd : List (Nat × List Nat)) (wD : List Nat) (k : Nat)
    (hddnd : (dd.map Prod.fst).Nodup)
    (hswap : dc.map Prod.swap = dd)
    (hk : dc.lookup w = some k)
    (rest res : List Nat) :
    lzwDecodeLoop (k :: rest) dd 4096 wD res =
      lzwDecodeLoop rest dd 4096 w (res ++ w) := by
  have hmem : (w, k) ∈ dc := lookup_mem _ _ _ hk
  have hmem2 : (k, w) ∈ dc.map Prod.swap := List.mem_map.mpr ⟨(w, k), hmem, rfl⟩
  rw [hswap] at hmem2
  have hsome : dd.lookup k = some w := lookup_of_mem_nodup _ _ _ hddnd hmem2
  simp only [lzwDecodeLoop, hsome]
  rw [if_neg (by omega)]

theorem lzwSim (S : List Nat) :
    ∀ (dc : List (List Nat × Nat)) (s : Nat) (w : List Nat)
      (dd : List (Nat × List Nat)) (sD : Nat) (wD res : List Nat),
      (∀ b ∈ S, b < 256) → LzwSync dc s w dd sD wD →
      ∃ dd2 sD2 wD2 res2,
        LzwSync (S.foldl lzwAStep ⟨dc, s, w, []⟩).dict
          (S.foldl lzwAStep ⟨dc, s, w, []⟩).size
          (S.foldl lzwAStep ⟨dc, s, w, []⟩).w dd2 sD2 wD2 ∧
        (∀ k ∈ (S.foldl lzwAStep ⟨dc, s, w, []⟩).codes, k < 4096) ∧
        res2 ++ (S.foldl lzwAStep ⟨dc, s, w, []⟩).w = res ++ w ++ S ∧
        (∀ tail : List Nat,
          lzwDecodeLoop ((S.foldl lzwAStep ⟨dc, s, w, []⟩).codes ++ tail) dd sD wD res =
            lzwDecodeLoop tail dd2 sD2 wD2 res2) := by
  induction S with
  | nil =>
    intro dc s w dd sD wD res _ hsync
    exact ⟨dd, sD, wD, res, by simpa using hsync, by simp, by simp,
      fun tail => by simp⟩
  | cons cb S ih =>
    intro dc s w dd sD wD res hbytes hsync
    obtain ⟨hwD, hdd, hddnd, hdcv, hdcnd, hseed, hlw, hcase⟩ := hsync
    have hcb : cb < 256 := hbytes cb (by simp)
    rw [List.foldl_cons]
    by_cases hc : ((dc.lookup (w ++ [cb])).isSome : Prop)
    · rw [show lzwAStep ⟨dc, s, w, []⟩ cb = ⟨dc, s, w ++ [cb], []⟩ by
        rw [lzwAStep]; exact if_pos hc]
      have hsync2 : LzwSync dc s (w ++ [cb]) dd sD wD := by
        refine ⟨hwD, hdd, hddnd, hdcv, hdcnd, hseed, hc, ?_⟩
        rcases hcase with ⟨c, wrest, hw, hs, hsD, hswap⟩ | ⟨hs, hsD, hswap, hwne⟩
        · exact Or.inl ⟨c, wrest ++ [cb], by rw [hw, List.cons_append], hs, hsD, hswap⟩
        · exact Or.inr ⟨hs, hsD, hswap, by simp⟩
      obtain ⟨dd2, sD2, wD2, res2, ha, hb2, hres, heq⟩ := ih dc s (w ++ [cb]) dd sD wD
        res (fun b hb => hbytes b (by simp [hb])) hsync2
      refine ⟨dd2, sD2, wD2, res2, ha, hb2, ?_, heq⟩
      rw [hres]
      simp
    · obtain ⟨k, hk⟩ := Option.isSome_iff_exists.mp hlw
      rw [show lzwAStep ⟨dc, s, w, []⟩ cb =
          ⟨if s < 4096 then (w ++ [cb], s) :: dc else dc,
           if s < 4096 then s + 1 else s, [cb], [k]⟩ by
        rw [lzwAStep]
        rw [if_neg hc]
        simp only [hk]
        simp]
      have hkmem := lookup_mem _ _ _ hk
      have hks : k < s := hdcv _ hkmem
      rcases hcase with ⟨c, wrest, hw, hs, hsD, hswap⟩ | ⟨hs, hsD, hswap, hwne⟩
      · -- decoder lags one insertion behind
        subst hw
        have hdec := lzw_decode_lag dc c wrest dd sD wD k hwD
          (fun p hp => (hdd p hp).1) hddnd hswap hsD hk
        by_cases hscap : s < 4096
        · rw [if_pos hscap, if_pos hscap]
          have hsync2 : LzwSync ((c :: wrest ++ [cb], s) :: dc) (s + 1) [cb]
              ((sD, wD ++ [c]) :: dd) (sD + 1) (c :: wrest) := by
            refine ⟨by simp, ?_, ?_, ?_, ?_, ?_, ?_, ?_⟩
            · intro p hp
              rcases List.mem_cons.mp hp with he | hm
              · rw [he]
                exact ⟨by omega, by simp⟩
              · have := hdd p hm
                exact ⟨by omega, this.2⟩
            · rw [List.map_cons, List.nodup_cons]
              refine ⟨?_, hddnd⟩
              intro hmem
              obtain ⟨p, hp, hpe⟩ := List.mem_map.mp hmem
              have := (hdd p hp).1
              omega
            · intro p hp
              rcases List.mem_cons.mp hp with he | hm
              · rw [he]
                show s < s + 1
                omega
              · have := hdcv p hm
                omega
            · rw [List.map_cons, List.nodup_cons]
              refine ⟨?_, hdcnd⟩
              intro hmem
              obtain ⟨p, hp, hpe⟩ := List.mem_map.mp hmem
              apply hc
              have hpe2 : (c :: wrest) ++ [cb] = p.1 := by
                rw [hpe]
              have hpp : ((c :: wrest) ++ [cb], p.2) ∈ dc := by
                rw [hpe2]
                exact hp
              exact mem_lookup_isSome dc _ p.2 hpp
            · intro b hb
              exact List.mem_cons_of_mem _ (hseed b hb)
            · exact mem_lookup_isSome _ [cb] cb
                (List.mem_cons_of_mem _ (hseed cb hcb))
            · refine Or.inl ⟨cb, [], rfl, by omega, by omega, ?_⟩
              rw [List.map_cons, hswap, hs]
              rfl
          obtain ⟨dd2, sD2, wD2, res2, ha, hb2, hres, heq⟩ := ih
            ((c :: wrest ++ [cb], s) :: dc) (s + 1) [cb]
            ((sD, wD ++ [c]) :: dd) (sD + 1) (c :: wrest) (res ++ (c :: wrest))
            (fun b hb => hbytes b (by simp [hb])) hsync2
          rw [lzwAStep_codes S _ _ [cb] [k]]
          refine ⟨dd2, sD2, wD2, res2, ha, ?_, ?_, ?_⟩
          · intro kk hkk
            rcases List.mem_append.mp hkk with hh | ht
            · have : kk = k := by simpa using hh
              omega
            · exact hb2 kk ht
          · rw [hres]
            simp
          · intro tail
            rw [List.append_assoc, List.singleton_append, hdec _ res]
            exact heq tail
        · have hseq : s = 4096 := by omega
          rw [if_neg hscap, if_neg hscap]
          have hsync2 : LzwSync dc s [cb] ((sD, wD ++ [c]) :: dd) (sD + 1)
              (c :: wrest) := by
            refine ⟨by simp, ?_, ?_, hdcv, hdcnd, hseed, ?_, ?_⟩
            · intro p hp
              rcases List.mem_cons.mp hp with he | hm
              · rw [he]
                exact ⟨by omega, by simp⟩
              · have := hdd p hm
                exact ⟨by omega, this.2⟩
            · rw [List.map_cons, List.nodup_cons]
              refine ⟨?_, hddnd⟩
              intro hmem
              obtain ⟨p, hp, hpe⟩ := List.mem_map.mp hmem
              have := (hdd p hp).1
              omega
            · exact mem_lookup_isSome _ [cb] cb (hseed cb hcb)
            · exact Or.inr ⟨by omega, by omega, by rw [hswap], by simp⟩
          obtain ⟨dd2, sD2, wD2, res2, ha, hb2, hres, heq⟩ := ih
            dc s [cb] ((sD, wD ++ [c]) :: dd) (sD + 1) (c :: wrest)
            (res ++ (c :: wrest)) (fun b hb => hbytes b (by simp [hb])) hsync2
          rw [lzwAStep_codes S _ _ [cb] [k]]
          refine ⟨dd2, sD2, wD2, res2, ha, ?_, ?_, ?_⟩
          · intro kk hkk
            rcases List.mem_append.mp hkk with hh | ht
            · have : kk = k := by simpa using hh
              omega
            · exact hb2 kk ht
          · rw [hres]
            simp
          · intro tail
            rw [List.append_assoc, List.singleton_append, hdec _ res]
            exact heq tail
      · -- dictionaries already coincide at the cap
        subst hsD
        have hdec := lzw_decode_full dc w dd wD k hddnd hswap hk
        rw [if_neg (by omega), if_neg (by omega)]
        have hsync2 : LzwSync dc s [cb] dd 4096 w := by
          refine ⟨hwne, hdd, hddnd, hdcv, hdcnd, hseed, ?_, ?_⟩
          · exact mem_lookup_isSome _ [cb] cb (hseed cb hcb)
          · exact Or.inr ⟨hs, rfl, hswap, by simp⟩
        obtain ⟨dd2, sD2, wD2, res2, ha, hb2, hres, heq⟩ := ih
          dc s [cb] dd 4096 w (res ++ w)
          (fun b hb => hbytes b (by simp [hb])) hsync2
        rw [lzwAStep_codes S _ _ [cb] [k]]
        refine ⟨dd2, sD2, wD2, res2, ha, ?_, ?_, ?_⟩
        · intro kk hkk
          rcases List.mem_append.mp hkk with hh | ht
          · have : kk = k := by simpa using hh
            omega
          · exact hb2 kk ht
        · rw [hres]
          simp
        · intro tail
          rw [List.append_assoc, List.singleton_append, hdec _ res]
          exact heq tail

theorem lzwStep_first (b0 : Nat) (hb0 : b0 < 256) :
    lzwAStep lzwAInit b0 = ⟨lzwSeedDict, 256, [b0], []⟩ := by
  have hlk : ((lzwSeedDict.lookup (([] : List Nat) ++ [b0])).isSome : Prop) := by
    rw [List.nil_append, seedC_lookup b0 hb0]
    rfl
  rw [lzwAInit, lzwAStep]
  rw [if_pos hlk]
  simp

theorem lzwStep_second (b0 b1 : Nat) (hb0 : b0 < 256) :
    lzwAStep ⟨lzwSeedDict, 256, [b0], []⟩ b1 =
      ⟨([b0, b1], 256) :: lzwSeedDict, 257, [b1], [b0]⟩ := by
  have hnone : lzwSeedDict.lookup ([b0] ++ [b1]) = none := by
    apply seedC_lookup_pair
    simp
  have hcond : ¬ ((((⟨lzwSeedDict, 256, [b0], []⟩ : LzwA).dict.lookup
      ((⟨lzwSeedDict, 256, [b0], []⟩ : LzwA).w ++ [b1])).isSome : Prop)) := by
    show ¬ (((lzwSeedDict.lookup ([b0] ++ [b1])).isSome : Prop))
    rw [hnone]
    simp
  rw [lzwAStep, if_neg hcond]
  dsimp only
  rw [seedC_lookup b0 hb0, if_pos (by norm_num), if_pos (by norm_num)]
  rfl

theorem lzwSync_init (b0 b1 : Nat) (hb0 : b0 < 256) (hb1 : b1 < 256) :
    LzwSync (([b0, b1], 256) :: lzwSeedDict) 257 [b1] lzwDecDict0 256 [b0] := by
  refine ⟨by simp, ?_, seedD_keys_nodup, ?_, ?_, ?_, ?_, ?_⟩
  · intro p hp
    exact seedD_facts p hp
  · intro p hp
    rcases List.mem_cons.mp hp with he | hm
    · rw [he]
      show 256 < 257
      norm_num
    · have := seedC_vals p hm
      omega
  · rw [List.map_cons, List.nodup_cons]
    refine ⟨?_, seedC_keys_nodup⟩
    intro hmem
    obtain ⟨p, hp, hpe⟩ := List.mem_map.mp hmem
    rw [lzwSeedDict] at hp
    obtain ⟨i, hi, he2⟩ := List.mem_map.mp hp
    rw [← he2] at hpe
    simp at hpe
  · intro b hb
    exact List.mem_cons_of_mem _ (seedC_mem b hb)
  · exact mem_lookup_isSome _ _ b1 (List.mem_cons_of_mem _ (seedC_mem b1 hb1))
  · refine Or.inl ⟨b1, [], rfl, rfl, by norm_num, ?_⟩
    rw [List.map_cons, swap_seed]
    rfl

theorem lzwDecodeLoop_nil (dd : List (Nat × List Nat)) (sD : Nat) (wD res : List Nat) :
    lzwDecodeLoop [] dd sD wD res = some (res, false) := by
  rw [lzwDecodeLoop]

theorem lzwRoundTrip (input : List Nat) (hbytes : ∀ b ∈ input, b < 256) :
    lzwDecompress (lzwCompress input) = some (input, false) := by
  match input with
  | [] => decide
  | [b] =>
    have hb : b < 256 := hbytes b (by simp)
    have hcodes : lzwCodes [b] = [b] := by
      rw [lzwCodes]
      rw [show ([b] : List Nat).foldl lzwAStep lzwAInit = ⟨lzwSeedDict, 256, [b], []⟩ by
        rw [List.foldl_cons, lzwStep_first b hb, List.foldl_nil]]
      dsimp only
      rw [if_neg (by simp), seedC_lookup b hb]
      rfl
    have hall : ∀ k ∈ ([b] : List Nat), k < 4096 := by
      intro k hk
      have : k = b := by simpa using hk
      omega
    have hread : lzwReadCodes (lzwCompress [b]) = [b] := by
      rw [lzwCompress_wr, hcodes]
      exact lzwReadCodes_wr [b] hall
    rw [lzwDecompress, hread]
    dsimp only
    rw [seedD_lookup b hb]
    rw [lzwDecodeLoop_nil]
    rfl
  | b0 :: b1 :: S =>
    have hb0 : b0 < 256 := hbytes b0 (by simp)
    have hb1 : b1 < 256 := hbytes b1 (by simp)
    have hfold2 : (b0 :: b1 :: S).foldl lzwAStep lzwAInit =
        S.foldl lzwAStep ⟨([b0, b1], 256) :: lzwSeedDict, 257, [b1], [b0]⟩ := by
      rw [List.foldl_cons, lzwStep_first b0 hb0, List.foldl_cons,
        lzwStep_second b0 b1 hb0]
    obtain ⟨dd2, sD2, wD2, res2, hsync2, hcodes4096, hres, heq⟩ :=
      lzwSim S (([b0, b1], 256) :: lzwSeedDict) 257 [b1] lzwDecDict0 256 [b0] [b0]
        (fun b hb => hbytes b (by simp [hb])) (lzwSync_init b0 b1 hb0 hb1)
    obtain ⟨hwD2, hdd2, hddnd2, hdcv2, hdcnd2, hseed2, hlw2, hcase2⟩ := hsync2
    obtain ⟨kf, hkf⟩ := Option.isSome_iff_exists.mp hlw2
    have hkfs : kf <
        (S.foldl lzwAStep ⟨([b0, b1], 256) :: lzwSeedDict, 257, [b1], []⟩).size :=
      hdcv2 _ (lookup_mem _ _ _ hkf)
    have hs4096 :
        (S.foldl lzwAStep ⟨([b0, b1], 256) :: lzwSeedDict, 257, [b1], []⟩).size ≤
          4096 := by
      rcases hcase2 with ⟨c, wrest, hw, hs, hsD, hswap⟩ | ⟨hs, hsD, hswap, hwne⟩
      · omega
      · omega
    have hXw : (S.foldl lzwAStep ⟨([b0, b1], 256) :: lzwSeedDict, 257, [b1], []⟩).w ≠
        [] := by
      rcases hcase2 with ⟨c, wrest, hw, hs, hsD, hswap⟩ | ⟨hs, hsD, hswap, hwne⟩
      · rw [hw]
        simp
      · exact hwne
    have hcodes : lzwCodes (b0 :: b1 :: S) =
        (b0 :: (S.foldl lzwAStep
          ⟨([b0, b1], 256) :: lzwSeedDict, 257, [b1], []⟩).codes) ++ [kf] := by
      rw [lzwCodes, hfold2, lzwAStep_codes S _ _ [b1] [b0]]
      dsimp only
      rw [if_neg hXw, hkf]
      simp
    have hall : ∀ k ∈ lzwCodes (b0 :: b1 :: S), k < 4096 := by
      rw [hcodes]
      intro k hk
      rcases List.mem_append.mp hk with hh | ht
      · rcases List.mem_cons.mp hh with he | hm
        · omega
        · exact hcodes4096 k hm
      · have : k = kf := by simpa using ht
        omega
    have hread : lzwReadCodes (lzwCompress (b0 :: b1 :: S)) =
        (b0 :: (S.foldl lzwAStep
          ⟨([b0, b1], 256) :: lzwSeedDict, 257, [b1], []⟩).codes) ++ [kf] := by
      rw [lzwCompress_wr, hcodes]
      apply lzwReadCodes_wr
      intro k hk
      apply hall
      rw [hcodes]
      exact hk
    rw [lzwDecompress, hread]
    rw [List.cons_append]
    dsimp only
    rw [seedD_lookup b0 hb0]
    dsimp only [Option.getD]
    rw [heq [kf]]
    have hfinal : lzwDecodeLoop [kf] dd2 sD2 wD2 res2 =
        some (res2 ++ (S.foldl lzwAStep
          ⟨([b0, b1], 256) :: lzwSeedDict, 257, [b1], []⟩).w, false) := by
      rcases hcase2 with ⟨c, wrest, hw, hs, hsD, hswap⟩ | ⟨hs, hsD, hswap, hwne⟩
      · have hkf2 : (S.foldl lzwAStep
            ⟨([b0, b1], 256) :: lzwSeedDict, 257, [b1], []⟩).dict.lookup
            (c :: wrest) = some kf := by
          rw [← hw]
          exact hkf
        rw [lzw_decode_lag _ c wrest dd2 sD2 wD2 kf hwD2
          (fun p hp => (hdd2 p hp).1) hddnd2 hswap hsD hkf2 [] res2]
        rw [lzwDecodeLoop_nil, hw]
      · subst hsD
        rw [lzw_decode_full _ _ dd2 wD2 kf hddnd2 hswap hkf [] res2]
        rw [lzwDecodeLoop_nil]
    rw [hfinal, hres]
    rfl

theorem lzwCompressStep_inv (st : LzwC) (c : Nat)
    (h : st.dict.length = st.size ∧ 256 ≤ st.size ∧ st.size ≤ 4096) :
    (lzwCompressStep st c).dict.length = (lzwCompressStep st c).size ∧
      256 ≤ (lzwCompressStep st c).size ∧ (lzwCompressStep st c).size ≤ 4096 := by
  rw [lzwCompressStep]
  by_cases hc : ((st.dict.lookup (st.w ++ [c])).isSome : Prop)
  · rw [if_pos hc]
    exact h
  · rw [if_neg hc]
    by_cases hs : st.size < 4096
    · rw [if_pos hs]
      refine ⟨?_, by show 256 ≤ st.size + 1; omega, by show st.size + 1 ≤ 4096; omega⟩
      show ((st.w ++ [c], st.size) :: st.dict).length = st.size + 1
      rw [List.length_cons]
      omega
    · rw [if_neg hs]
      exact h

theorem lzwCompressStep_frozen (st : LzwC) (c : Nat) (h : st.size = 4096) :
    (lzwCompressStep st c).dict = st.dict ∧ (lzwCompressStep st c).size = 4096 := by
  rw [lzwCompressStep]
  by_cases hc : ((st.dict.lookup (st.w ++ [c])).isSome : Prop)
  · rw [if_pos hc]
    exact ⟨rfl, h⟩
  · rw [if_neg hc, if_neg (by omega)]
    exact ⟨rfl, h⟩

theorem lzwCompress_run_inv (pre : List Nat) :
    ∀ st : LzwC, st.dict.length = st.size ∧ 256 ≤ st.size ∧ st.size ≤ 4096 →
      (pre.foldl lzwCompressStep st).dict.length = (pre.foldl lzwCompressStep st).size ∧
      256 ≤ (pre.foldl lzwCompressStep st).size ∧
      (pre.foldl lzwCompressStep st).size ≤ 4096 := by
  induction pre with
  | nil => intro st h; exact h
  | cons c rest ih =>
    intro st h
    rw [List.foldl_cons]
    exact ih _ (lzwCompressStep_inv st c h)

theorem lzwSeedDict_length : lzwSeedDict.length = 256 := by
  rw [lzwSeedDict, List.length_map, List.length_range]

theorem lzwDecDict0_length : lzwDecDict0.length = 256 := by
  rw [lzwDecDict0, List.length_map, List.length_range]

theorem lzwDecodeLoop_inv (K1 : List Nat) :
    ∀ (K2 : List Nat) (dict : List (Nat × List Nat)) (size : Nat) (w res : List Nat),
      dict.length = size → 256 ≤ size → size ≤ 4096 →
      (∃ dict2 size2 w2 res2,
        lzwDecodeLoop (K1 ++ K2) dict size w res =
          lzwDecodeLoop K2 dict2 size2 w2 res2 ∧
        dict2.length = size2 ∧ 256 ≤ size2 ∧ size2 ≤ 4096 ∧
        (size = 4096 → dict2 = dict ∧ size2 = 4096)) ∨
      lzwDecodeLoop (K1 ++ K2) dict size w res = none ∨
      lzwDecodeLoop (K1 ++ K2) dict size w res = some ([], true) := by
  induction K1 with
  | nil =>
    intro K2 dict size w res h1 h2 h3
    exact Or.inl ⟨dict, size, w, res, by rw [List.nil_append], h1, h2, h3,
      fun h4 => ⟨rfl, h4⟩⟩
  | cons k K1 ih =>
    intro K2 dict size w res h1 h2 h3
    rw [List.cons_append]
    cases hlk : dict.lookup k with
    | some e =>
      by_cases hs : size < 4096
      · match he : e with
        | [] =>
          refine Or.inr (Or.inl ?_)
          simp only [lzwDecodeLoop, hlk, he]
          rw [if_pos hs]
        | e0 :: etl =>
          have hstep : lzwDecodeLoop (k :: (K1 ++ K2)) dict size w res =
              lzwDecodeLoop (K1 ++ K2) ((size, w ++ [e0]) :: dict) (size + 1) e
                (res ++ e) := by
            simp only [lzwDecodeLoop, hlk, he]
            rw [if_pos hs]
          rw [hstep]
          rcases ih K2 ((size, w ++ [e0]) :: dict) (size + 1) e (res ++ e)
            (by rw [List.length_cons]; omega) (by omega) (by omega) with
            ⟨d2, s2, w2, r2, heq, hh1, hh2, hh3, hh4⟩ | hrest
          · exact Or.inl ⟨d2, s2, w2, r2, heq, hh1, hh2, hh3, fun hcap => by omega⟩
          · exact Or.inr hrest
      · have hstep : lzwDecodeLoop (k :: (K1 ++ K2)) dict size w res =
            lzwDecodeLoop (K1 ++ K2) dict size e (res ++ e) := by
          simp only [lzwDecodeLoop, hlk]
          rw [if_neg hs]
        rw [hstep]
        rcases ih K2 dict size e (res ++ e) h1 h2 h3 with
          ⟨d2, s2, w2, r2, heq, hh1, hh2, hh3, hh4⟩ | hrest
        · exact Or.inl ⟨d2, s2, w2, r2, heq, hh1, hh2, hh3, hh4⟩
        · exact Or.inr hrest
    | none =>
      by_cases hke : k = size
      · match hw : w with
        | [] =>
          refine Or.inr (Or.inl ?_)
          simp only [lzwDecodeLoop, hlk]
          rw [if_pos hke]
        | w0 :: wtl =>
          by_cases hs : size < 4096
          · have hstep : lzwDecodeLoop (k :: (K1 ++ K2)) dict size (w0 :: wtl) res =
                lzwDecodeLoop (K1 ++ K2) ((size, (w0 :: wtl) ++ [w0]) :: dict)
                  (size + 1) ((w0 :: wtl) ++ [w0]) (res ++ ((w0 :: wtl) ++ [w0])) := by
              simp only [lzwDecodeLoop, hlk]
              rw [if_pos hke, if_pos hs]
            rw [hstep]
            rcases ih K2 ((size, (w0 :: wtl) ++ [w0]) :: dict) (size + 1)
              ((w0 :: wtl) ++ [w0]) (res ++ ((w0 :: wtl) ++ [w0]))
              (by rw [List.length_cons]; omega) (by omega) (by omega) with
              ⟨d2, s2, w2, r2, heq, hh1, hh2, hh3, hh4⟩ | hrest
            · exact Or.inl ⟨d2, s2, w2, r2, heq, hh1, hh2, hh3, fun hcap => by omega⟩
            · exact Or.inr hrest
          · have hstep : lzwDecodeLoop (k :: (K1 ++ K2)) dict size (w0 :: wtl) res =
                lzwDecodeLoop (K1 ++ K2) dict size ((w0 :: wtl) ++ [w0])
                  (res ++ ((w0 :: wtl) ++ [w0])) := by
              simp only [lzwDecodeLoop, hlk]
              rw [if_pos hke, if_neg hs]
            rw [hstep]
            rcases ih K2 dict size ((w0 :: wtl) ++ [w0])
              (res ++ ((w0 :: wtl) ++ [w0])) h1 h2 h3 with
              ⟨d2, s2, w2, r2, heq, hh1, hh2, hh3, hh4⟩ | hrest
            · exact Or.inl ⟨d2, s2, w2, r2, heq, hh1, hh2, hh3, hh4⟩
            · exact Or.inr hrest
      · refine Or.inr (Or.inr ?_)
        simp only [lzwDecodeLoop, hlk]
        rw [if_neg hke]

/-- C8: throughout both `lzw::compress` and `lzw::decompress` the dictionary
    holds at most 4096 entries — the entry count equals `dict_size`, starts at
    the 256 single-byte seeds, never exceeds 4096 at any step of either loop,
    and once it reaches 4096 no further entry is added (growth stops exactly
    there) — and `decompress (compress x) = x` holds for every byte input,
    in particular for inputs requiring more distinct sequences than the cap. -/
theorem c8_lzw_dict_cap_and_roundtrip :
    (∀ (st : LzwC) (c : Nat),
        st.dict.length = st.size ∧ 256 ≤ st.size ∧ st.size ≤ 4096 →
        (lzwCompressStep st c).dict.length = (lzwCompressStep st c).size ∧
          256 ≤ (lzwCompressStep st c).size ∧ (lzwCompressStep st c).size ≤ 4096) ∧
    (∀ (st : LzwC) (c : Nat), st.size = 4096 →
        (lzwCompressStep st c).dict = st.dict ∧ (lzwCompressStep st c).size = 4096) ∧
    (∀ input pre : List Nat, pre <+: input →
        (pre.foldl lzwCompressStep ⟨lzwSeedDict, 256, [], ⟨0, 0, []⟩⟩).dict.length =
          (pre.foldl lzwCompressStep ⟨lzwSeedDict, 256, [], ⟨0, 0, []⟩⟩).size ∧
        256 ≤ (pre.foldl lzwCompressStep ⟨lzwSeedDict, 256, [], ⟨0, 0, []⟩⟩).size ∧
        (pre.foldl lzwCompressStep ⟨lzwSeedDict, 256, [], ⟨0, 0, []⟩⟩).size ≤ 4096) ∧
    (∀ (K1 K2 : List Nat) (dict : List (Nat × List Nat)) (size : Nat)
        (w res : List Nat), dict.length = size → 256 ≤ size → size ≤ 4096 →
        (∃ dict2 size2 w2 res2,
          lzwDecodeLoop (K1 ++ K2) dict size w res =
            lzwDecodeLoop K2 dict2 size2 w2 res2 ∧
          dict2.length = size2 ∧ 256 ≤ size2 ∧ size2 ≤ 4096 ∧
          (size = 4096 → dict2 = dict ∧ size2 = 4096)) ∨
        lzwDecodeLoop (K1 ++ K2) dict size w res = none ∨
        lzwDecodeLoop (K1 ++ K2) dict size w res = some ([], true)) ∧
    (∀ input : List Nat, (∀ b ∈ input, b < 256) →
        lzwDecompress (lzwCompress input) = some (input, false)) := by
  refine ⟨fun st c h => lzwCompressStep_inv st c h,
    fun st c h => lzwCompressStep_frozen st c h,
    fun input pre hpre => lzwCompress_run_inv pre _
      ⟨lzwSeedDict_length, by norm_num, by norm_num⟩,
    fun K1 K2 dict size w res h1 h2 h3 => lzwDecodeLoop_inv K1 K2 dict size w res
      h1 h2 h3,
    fun input hb => lzwRoundTrip input hb⟩

/-- C8 witness. -/
theorem c8_witness :
    ((lzwCompressStep ⟨lzwSeedDict, 256, [], ⟨0, 0, []⟩⟩ 65).dict.length =
        (lzwCompressStep ⟨lzwSeedDict, 256, [], ⟨0, 0, []⟩⟩ 65).size ∧
      256 ≤ (lzwCompressStep ⟨lzwSeedDict, 256, [], ⟨0, 0, []⟩⟩ 65).size ∧
      (lzwCompressStep ⟨lzwSeedDict, 256, [], ⟨0, 0, []⟩⟩ 65).size ≤ 4096) ∧
    ((lzwCompressStep ⟨lzwSeedDict, 4096, [7], ⟨0, 0, []⟩⟩ 65).dict = lzwSeedDict ∧
      (lzwCompressStep ⟨lzwSeedDict, 4096, [7], ⟨0, 0, []⟩⟩ 65).size = 4096) ∧
    lzwDecompress (lzwCompress [65, 65, 65, 66]) = some ([65, 65, 65, 66], false) :=
  ⟨c8_lzw_dict_cap_and_roundtrip.1 ⟨lzwSeedDict, 256, [], ⟨0, 0, []⟩⟩ 65
      ⟨lzwSeedDict_length, by norm_num, by norm_num⟩,
    c8_lzw_dict_cap_and_roundtrip.2.1 ⟨lzwSeedDict, 4096, [7], ⟨0, 0, []⟩⟩ 65 rfl,
    c8_lzw_dict_cap_and_roundtrip.2.2.2.2 [65, 65, 65, 66] (by decide)⟩

end Archiver
